import Mathlib

/-!
# A verification development for the tasq task-queue server

This file gives a shallow embedding, in Lean 4, of the queue engine of the
tasq server (Go), together with proofs of the behavioural properties stated
in the project's specification.

The embedding follows the Go sources:

* `RateTracker` — the sliding-window per-second event counter
  (`rate_tracker.go`): `AddAt`, `CountAt`, `truncateAndShift`, `Reset`.
* `Task`, `TaskDeque` — the task record and the intrusive deque (`task.go`),
  modelled as a `List Task` in head-to-tail order, plus the codec
  (`Encode` / `DecodeTaskDeque`).
* `PendingQueue`, `RunningQueue`, `QueueState` — the per-context engine
  (`queues.go`): `Push`, `Pop`, `PopBatch`, `Completed`, `Keepalive`,
  `Clear`, `ExpireAll`, `QueueExpired`, and the snapshot codec.

Go's `time.Time` instants and `time.Duration` values are modelled as `Int`
(the engine only compares instants and adds durations); `time.Now()`
becomes an explicit `now` argument on each operation that reads the clock.
Go's `int64` arithmetic is modelled as `Int` with an explicit two's
complement wrap where overflow could matter (the `curID` counter).

A second model (`namespace AttemptModel`) extends the engine with the
per-task delivery-attempt counter (`numAttempts`) and the push capacity
`limit`.  The code for those two features is exercised by the repository's
tests and HTTP handlers but its engine-side implementation is not among the
available sources, so those definitions are modelled from the
specification; each such definition says so in its doc comment.
-/

/-! ## Rate tracker (rate_tracker.go) -/

/-- Default history size used for `RateTracker` (Go constant
`DefaultRateTrackerBins = 128`). -/
def DefaultRateTrackerBins : Nat := 128

/-- A `RateTracker` keeps a sliding window of event counts over the last
`bins.length` seconds.  `firstBinTime` is the epoch second covered by
bin 0; the last bin covers second `firstBinTime + bins.length - 1`. -/
structure RateTracker where
  firstBinTime : Int
  bins : List Int
  deriving DecidableEq, Repr

namespace RateTracker

/-- `NewRateTracker` (Go): a tracker with `historySize` zeroed bins, or
`DefaultRateTrackerBins` bins when `historySize = 0`. -/
def NewRateTracker (historySize : Nat) : RateTracker :=
  let n := if historySize = 0 then DefaultRateTrackerBins else historySize
  { firstBinTime := 0, bins := List.replicate n 0 }

/-- `Reset` (Go): zero all counters, keeping `firstBinTime`. -/
def Reset (r : RateTracker) : RateTracker :=
  { r with bins := List.replicate r.bins.length 0 }

/-- `HistorySize` (Go): the number of time bins. -/
def HistorySize (r : RateTracker) : Nat := r.bins.length

/-- The epoch second covered by the last bin (`lastBinTime` in Go's
`truncateAndShift`). -/
def lastBin (r : RateTracker) : Int := r.firstBinTime + r.bins.length - 1

/-- `truncateAndShift` (Go): slide the window so that the last bin covers
the second `curTime`.  A clock jump outside the window of interest resets
the ring; a slight backward clock move shifts the bins right (losing the
counts recorded for seconds now in the future); a forward move shifts the
bins left, zeroing the vacated recent bins. -/
def truncateAndShift (r : RateTracker) (curTime : Int) : RateTracker :=
  let n : Int := r.bins.length
  let lastBinTime := r.firstBinTime + n - 1
  if curTime < r.firstBinTime ∨ curTime ≥ lastBinTime + n then
    { firstBinTime := curTime - (n - 1),
      bins := List.replicate r.bins.length 0 }
  else if curTime < lastBinTime then
    let backtrack := (lastBinTime - curTime).toNat
    { firstBinTime := r.firstBinTime - backtrack,
      bins := List.replicate backtrack 0 ++ r.bins.take (r.bins.length - backtrack) }
  else if curTime > lastBinTime then
    let forward := (curTime - lastBinTime).toNat
    { firstBinTime := r.firstBinTime + forward,
      bins := r.bins.drop forward ++ List.replicate forward 0 }
  else r

/-- `AddAt` (Go): slide the window to `curTime`, then add `n` to the last
bin. -/
def AddAt (r : RateTracker) (curTime n : Int) : RateTracker :=
  let r := r.truncateAndShift curTime
  { r with
    bins := r.bins.set (r.bins.length - 1) (r.bins.getD (r.bins.length - 1) 0 + n) }

/-- `CountAt` (Go): slide the window to `curTime`, then sum the last `t`
bins.  The Go code panics when `t` exceeds the history size; the theorems
below carry `t ≤ HistorySize` as a hypothesis.  Like the Go method, the
call mutates the tracker, so the shifted tracker is returned as well. -/
def CountAt (r : RateTracker) (curTime : Int) (t : Nat) : Int × RateTracker :=
  let r := r.truncateAndShift curTime
  ((r.bins.drop (r.bins.length - t)).sum, r)

/-- `Add` / `Count` (Go) call `AddAt` / `CountAt` with `time.Now()`;
the clock is an explicit argument here. -/
def Add (r : RateTracker) (now n : Int) : RateTracker := r.AddAt now n

end RateTracker

/-- `EncodedRateTracker` (Go): the JSON-serializable form. -/
structure EncodedRateTracker where
  FirstBinTime : Int
  Bins : List Int
  deriving DecidableEq, Repr

/-- `RateTracker.Encode` (Go). -/
def RateTracker.Encode (r : RateTracker) : EncodedRateTracker :=
  { FirstBinTime := r.firstBinTime, Bins := r.bins }

/-- `DecodeRateTracker` (Go).  The Go function takes a pointer and builds a
fresh default tracker when it is `nil`. -/
def DecodeRateTracker : Option EncodedRateTracker → RateTracker
  | none => RateTracker.NewRateTracker DefaultRateTrackerBins
  | some state => { firstBinTime := state.FirstBinTime, bins := state.Bins }

section RateTrackerExamples

open RateTracker

-- The scenario of `TestRateTracker` (rate_tracker_test.go), including the
-- backward clock move from 36 to 35.
example :
    let rt := ((((NewRateTracker 5).AddAt 30 2).AddAt 31 3).AddAt 32 4).AddAt 32 1
    let rt := rt.AddAt 33 1
    (rt.CountAt 33 1).1 = 1 ∧ (rt.CountAt 33 2).1 = 6 ∧ (rt.CountAt 33 5).1 = 11 := by
  decide

example :
    let rt := ((((NewRateTracker 5).AddAt 30 2).AddAt 31 3).AddAt 32 4).AddAt 32 1
    let rt := (rt.AddAt 33 1).AddAt 34 3
    (rt.CountAt 34 2).1 = 4 ∧
    ((rt.AddAt 36 7).CountAt 36 1).1 = 7 ∧
    ((rt.AddAt 36 7).CountAt 36 2).1 = 7 ∧
    ((rt.AddAt 36 7).CountAt 36 3).1 = 10 ∧
    ((rt.AddAt 36 7).CountAt 36 5).1 = 16 ∧
    (((rt.AddAt 36 7).AddAt 35 5).CountAt 35 1).1 = 5 ∧
    (((rt.AddAt 36 7).AddAt 35 5).CountAt 35 2).1 = 8 ∧
    (((rt.AddAt 36 7).AddAt 35 5).CountAt 35 5).1 = 14 ∧
    ((((rt.AddAt 36 7).AddAt 35 5).AddAt 40 10).CountAt 40 5).1 = 10 := by
  decide

end RateTrackerExamples

/-! ### Rate-tracker correctness (claim C1)

An `addAt`/`countAt` history is modelled as a list of `(time, n)` events.
`sumAt events s` is the total count added at exactly second `s`;
`sumWindow events lo hi` is the total count added at seconds in `[lo, hi]`.
-/

/-- Total count added at exactly second `s`. -/
def sumAt : List (Int × Int) → Int → Int
  | [], _ => 0
  | e :: rest, s => (if e.1 = s then e.2 else 0) + sumAt rest s

/-- Total count added at seconds in the window `[lo, hi]`. -/
def sumWindow : List (Int × Int) → Int → Int → Int
  | [], _, _ => 0
  | e :: rest, lo, hi => (if lo ≤ e.1 ∧ e.1 ≤ hi then e.2 else 0) + sumWindow rest lo hi

/-- Replay a history of `AddAt` events against a fresh tracker. -/
def runTracker (historySize : Nat) (events : List (Int × Int)) : RateTracker :=
  events.foldl (fun r e => r.AddAt e.1 e.2) (RateTracker.NewRateTracker historySize)

theorem sumAt_append (l₁ l₂ : List (Int × Int)) (s : Int) :
    sumAt (l₁ ++ l₂) s = sumAt l₁ s + sumAt l₂ s := by
  induction l₁ with
  | nil => simp [sumAt]
  | cons e rest ih => simp [sumAt, ih]; ring

theorem sumAt_eq_zero {events : List (Int × Int)} {s : Int}
    (h : ∀ e ∈ events, e.1 ≠ s) : sumAt events s = 0 := by
  induction events with
  | nil => rfl
  | cons e rest ih =>
    simp only [sumAt, if_neg (h e (List.mem_cons_self e rest))]
    rw [ih (fun f hf => h f (List.mem_cons_of_mem e hf))]
    ring

theorem sumWindow_of_lt {events : List (Int × Int)} {lo hi : Int}
    (h : hi < lo) : sumWindow events lo hi = 0 := by
  induction events with
  | nil => rfl
  | cons e rest ih =>
    simp only [sumWindow, ih]
    have : ¬(lo ≤ e.1 ∧ e.1 ≤ hi) := by omega
    simp [this]

theorem sumWindow_succ (events : List (Int × Int)) {lo hi : Int} (h : lo ≤ hi + 1) :
    sumWindow events lo (hi + 1) = sumWindow events lo hi + sumAt events (hi + 1) := by
  induction events with
  | nil => simp [sumWindow, sumAt]
  | cons e rest ih =>
    simp only [sumWindow, sumAt, ih]
    split_ifs <;> omega

/-- `sumWindow` over a window of length `t` is the sum of the per-second
counts. -/
theorem sumWindow_eq_range (events : List (Int × Int)) (lo : Int) (t : Nat) :
    sumWindow events lo (lo + t - 1)
      = ((List.range t).map (fun i : Nat => sumAt events (lo + (i : Int)))).sum := by
  induction t with
  | zero =>
    simp only [List.range_zero, List.map_nil, List.sum_nil]
    exact sumWindow_of_lt (by omega)
  | succ t ih =>
    have harith : lo + (t + 1 : Nat) - 1 = (lo + t - 1) + 1 := by push_cast; ring
    rw [harith, sumWindow_succ events (by omega), ih, List.range_succ]
    have : lo + t - 1 + 1 = lo + t := by ring
    simp [this]

theorem sum_drop_eq_range (l : List Int) (k : Nat) :
    (l.drop k).sum
      = ((List.range (l.length - k)).map (fun i => l.getD (k + i) 0)).sum := by
  induction l generalizing k with
  | nil => simp
  | cons a tl ih =>
    cases k with
    | zero =>
      simp only [List.drop_zero, List.length_cons, Nat.sub_zero, List.sum_cons,
        List.range_succ_eq_map, List.map_cons, List.map_map]
      have h0 : (a :: tl).getD (0 + 0) 0 = a := rfl
      rw [h0]
      have htl := ih 0
      simp only [List.drop_zero, Nat.sub_zero] at htl
      rw [htl]
      congr 1
    | succ k =>
      simp only [List.drop_succ_cons, List.length_cons, Nat.succ_sub_succ]
      rw [ih k]
      congr 1
      apply List.map_congr_left
      intro i _
      have : k + 1 + i = (k + i) + 1 := by omega
      rw [this, List.getD_cons_succ]

theorem getD_eq_zero_of_le {l : List Int} {i : Nat} (h : l.length ≤ i) :
    l.getD i 0 = 0 := by
  rw [List.getD_eq_getElem?_getD, List.getElem?_eq_none h]
  rfl

theorem getD_replicate_zero (n i : Nat) : (List.replicate n (0 : Int)).getD i 0 = 0 := by
  rw [List.getD_eq_getElem?_getD, List.getElem?_replicate]
  split <;> rfl

theorem getD_take_zero {l : List Int} (h : ∀ i, l.getD i 0 = 0) (k i : Nat) :
    (l.take k).getD i 0 = 0 := by
  rw [List.getD_eq_getElem?_getD, List.getElem?_take]
  split
  · rw [← List.getD_eq_getElem?_getD]
    exact h i
  · rfl

theorem getD_drop_zero {l : List Int} (h : ∀ i, l.getD i 0 = 0) (k i : Nat) :
    (l.drop k).getD i 0 = 0 := by
  rw [List.getD_eq_getElem?_getD, List.getElem?_drop, ← List.getD_eq_getElem?_getD]
  exact h (k + i)

theorem getD_append_zero {l₁ l₂ : List Int} (h1 : ∀ i, l₁.getD i 0 = 0)
    (h2 : ∀ i, l₂.getD i 0 = 0) (i : Nat) : (l₁ ++ l₂).getD i 0 = 0 := by
  rw [List.getD_eq_getElem?_getD, List.getElem?_append]
  split
  · rw [← List.getD_eq_getElem?_getD]
    exact h1 _
  · rw [← List.getD_eq_getElem?_getD]
    exact h2 _

namespace RateTracker

theorem length_truncateAndShift (r : RateTracker) (c : Int) :
    (r.truncateAndShift c).bins.length = r.bins.length := by
  simp only [truncateAndShift]
  split_ifs with h1 h2 h3
  · simp
  · simp only [List.length_append, List.length_replicate, List.length_take]
    omega
  · simp only [List.length_append, List.length_replicate, List.length_drop]
    omega
  · rfl

theorem lastBin_truncateAndShift (r : RateTracker) (c : Int) :
    (r.truncateAndShift c).lastBin = c := by
  simp only [truncateAndShift, lastBin]
  split_ifs with h1 h2 h3
  · simp only [List.length_replicate]
    omega
  · simp only [List.length_append, List.length_replicate, List.length_take]
    omega
  · simp only [List.length_append, List.length_replicate, List.length_drop]
    omega
  · omega

theorem firstBinTime_AddAt (r : RateTracker) (t n : Int) :
    (r.AddAt t n).firstBinTime = (r.truncateAndShift t).firstBinTime := rfl

theorem length_AddAt (r : RateTracker) (t n : Int) :
    (r.AddAt t n).bins.length = r.bins.length := by
  simp only [AddAt, List.length_set]
  exact length_truncateAndShift r t

theorem getD_truncateAndShift_zero (r : RateTracker) (c : Int)
    (h : ∀ i, r.bins.getD i 0 = 0) :
    ∀ i, (r.truncateAndShift c).bins.getD i 0 = 0 := by
  intro i
  simp only [truncateAndShift]
  split_ifs with h1 h2 h3
  · exact getD_replicate_zero _ i
  · exact getD_append_zero (getD_replicate_zero _) (getD_take_zero h _) i
  · exact getD_append_zero (getD_drop_zero h _) (getD_replicate_zero _) i
  · exact h i

/-- After a shift to `c`, with `c` at or after the last bin and after every
event, each bin still holds the per-second event count for the second it
now covers. -/
theorem getD_truncateAndShift (r : RateTracker) (events : List (Int × Int)) (c : Int)
    (hbins : ∀ i, i < r.bins.length → r.bins.getD i 0 = sumAt events (r.firstBinTime + i))
    (hev : ∀ e ∈ events, e.1 ≤ r.lastBin)
    (hc : r.lastBin ≤ c) :
    ∀ i, i < r.bins.length →
      (r.truncateAndShift c).bins.getD i 0
        = sumAt events ((r.truncateAndShift c).firstBinTime + i) := by
  intro i hi
  simp only [lastBin] at hev hc
  simp only [truncateAndShift]
  split_ifs with h1 h2 h3
  · -- full reset: all events are below the fresh window
    rw [List.getD_eq_getElem?_getD, List.getElem?_replicate, if_pos hi]
    simp only [Option.getD_some]
    symm
    apply sumAt_eq_zero
    intro e he
    have := hev e he
    omega
  · -- backward shift: impossible, c is at or after the last bin
    exfalso
    omega
  · -- forward shift
    simp only
    rw [List.getD_eq_getElem?_getD, List.getElem?_append]
    have hfl : ((c - (r.firstBinTime + r.bins.length - 1)).toNat) < r.bins.length := by
      omega
    simp only [List.length_drop]
    split_ifs with hcase
    · rw [List.getElem?_drop, ← List.getD_eq_getElem?_getD]
      rw [hbins _ (by omega)]
      congr 1
      push_cast
      omega
    · rw [List.getElem?_replicate, if_pos (by omega)]
      simp only [Option.getD_some]
      symm
      apply sumAt_eq_zero
      intro e he
      have := hev e he
      omega
  · -- clock unchanged
    exact hbins i hi
end RateTracker

/-- The inductive invariant tying a tracker to its event history: every bin
holds the per-second total for the second it covers, all events are at or
before the last bin's second, and (unless the history is empty) some event
hits the last bin's second exactly. -/
def BinsInv (r : RateTracker) (events : List (Int × Int)) : Prop :=
  (∀ i : Nat, i < r.bins.length → r.bins.getD i 0 = sumAt events (r.firstBinTime + i)) ∧
  (∀ e ∈ events, e.1 ≤ r.lastBin) ∧
  (events ≠ [] → ∃ e ∈ events, e.1 = r.lastBin)

namespace RateTracker

theorem binsInv_getD_truncateAndShift {r : RateTracker} {events : List (Int × Int)}
    {c : Int} (hinv : BinsInv r events) (hc : ∀ e ∈ events, e.1 ≤ c) :
    ∀ i, i < r.bins.length →
      (r.truncateAndShift c).bins.getD i 0
        = sumAt events ((r.truncateAndShift c).firstBinTime + i) := by
  obtain ⟨h1, h2, h3⟩ := hinv
  by_cases hev : events = []
  · subst hev
    intro i hi
    have hz : ∀ j, r.bins.getD j 0 = 0 := by
      intro j
      by_cases hj : j < r.bins.length
      · simpa [sumAt] using h1 j hj
      · exact getD_eq_zero_of_le (by omega)
    rw [getD_truncateAndShift_zero r c hz i]
    rfl
  · obtain ⟨e, he, heq⟩ := h3 hev
    exact getD_truncateAndShift r events c h1 h2 (heq ▸ hc e he)

theorem binsInv_AddAt {r : RateTracker} {events : List (Int × Int)} (t n : Int)
    (hinv : BinsInv r events) (ht : ∀ e ∈ events, e.1 ≤ t)
    (hlen : 0 < r.bins.length) :
    BinsInv (r.AddAt t n) (events ++ [(t, n)]) := by
  have hL : (r.truncateAndShift t).bins.length = r.bins.length :=
    length_truncateAndShift r t
  have hlast : (r.truncateAndShift t).lastBin = t := lastBin_truncateAndShift r t
  have h1' := binsInv_getD_truncateAndShift hinv ht
  have hfirst : (r.truncateAndShift t).firstBinTime
      = t - (r.bins.length : Int) + 1 := by
    simp only [lastBin, hL] at hlast
    omega
  have hbset : (r.AddAt t n).bins
      = (r.truncateAndShift t).bins.set ((r.truncateAndShift t).bins.length - 1)
          ((r.truncateAndShift t).bins.getD ((r.truncateAndShift t).bins.length - 1) 0 + n) :=
    rfl
  have hfb : (r.AddAt t n).firstBinTime = (r.truncateAndShift t).firstBinTime := rfl
  have hlen' : (r.AddAt t n).bins.length = r.bins.length := length_AddAt r t n
  have hlastA : (r.AddAt t n).lastBin = t := by
    simp only [lastBin, hfb, hlen', hfirst]
    omega
  refine ⟨?_, ?_, ?_⟩
  · intro i hi
    rw [hlen'] at hi
    rw [hbset, hfb, List.getD_eq_getElem?_getD, List.getElem?_set]
    rw [sumAt_append]
    by_cases hieq : i = r.bins.length - 1
    · rw [if_pos (by omega), if_pos (by omega)]
      simp only [Option.getD_some]
      have hidx : (r.truncateAndShift t).bins.length - 1 = i := by omega
      rw [hidx, h1' i (by omega)]
      have hsec : (r.truncateAndShift t).firstBinTime + (i : Int) = t := by
        rw [hfirst]; omega
      rw [hsec]
      simp [sumAt]
    · rw [if_neg (by omega), ← List.getD_eq_getElem?_getD]
      rw [h1' i (by omega)]
      have hne : (r.truncateAndShift t).firstBinTime + (i : Int) ≠ t := by
        rw [hfirst]; omega
      have hz : sumAt [(t, n)] ((r.truncateAndShift t).firstBinTime + (i : Int)) = 0 := by
        simp only [sumAt, add_zero]
        rw [if_neg (fun h => hne h.symm)]
      omega
  · intro e he
    rcases List.mem_append.mp he with h | h
    · rw [hlastA]
      exact ht e h
    · simp only [List.mem_singleton] at h
      subst h
      rw [hlastA]
  · intro _
    exact ⟨(t, n), by simp, by rw [hlastA]⟩

end RateTracker

theorem binsInv_NewRateTracker (historySize : Nat) :
    BinsInv (RateTracker.NewRateTracker historySize) [] := by
  refine ⟨?_, by simp, by simp⟩
  intro i hi
  show (List.replicate _ (0 : Int)).getD i 0 = sumAt [] _
  rw [getD_replicate_zero]
  rfl

theorem length_NewRateTracker_pos (historySize : Nat) :
    0 < (RateTracker.NewRateTracker historySize).bins.length := by
  show 0 < (List.replicate (if historySize = 0 then DefaultRateTrackerBins else historySize)
    (0 : Int)).length
  rw [List.length_replicate]
  split
  · decide
  · omega

theorem binsInv_foldl (events acc : List (Int × Int)) (r : RateTracker)
    (hr : BinsInv r acc) (hlen : 0 < r.bins.length)
    (hsorted : events.Pairwise (fun a b => a.1 ≤ b.1))
    (hacc : ∀ e ∈ acc, ∀ f ∈ events, e.1 ≤ f.1) :
    BinsInv (events.foldl (fun r e => r.AddAt e.1 e.2) r) (acc ++ events) := by
  induction events generalizing r acc with
  | nil => simpa using hr
  | cons e es ih =>
    obtain ⟨hhead, htail⟩ := List.pairwise_cons.mp hsorted
    simp only [List.foldl_cons]
    have hstep : BinsInv (r.AddAt e.1 e.2) (acc ++ [e]) := by
      have := RateTracker.binsInv_AddAt e.1 e.2 hr
        (fun f hf => hacc f hf e (List.mem_cons_self _ _)) hlen
      simpa using this
    have hacc' : ∀ g ∈ acc ++ [e], ∀ f ∈ es, g.1 ≤ f.1 := by
      intro g hg f hf
      rcases List.mem_append.mp hg with h | h
      · exact hacc g h f (List.mem_cons_of_mem _ hf)
      · simp only [List.mem_singleton] at h
        subst h
        exact hhead f hf
    have := ih (acc ++ [e]) (r.AddAt e.1 e.2) hstep
      (by rw [RateTracker.length_AddAt]; exact hlen) htail hacc'
    simpa [List.append_assoc] using this

theorem length_foldl_AddAt (events : List (Int × Int)) (r : RateTracker) :
    (events.foldl (fun r e => r.AddAt e.1 e.2) r).bins.length = r.bins.length := by
  induction events generalizing r with
  | nil => rfl
  | cons e es ih =>
    simp only [List.foldl_cons]
    rw [ih (r.AddAt e.1 e.2), RateTracker.length_AddAt]

theorem length_runTracker (historySize : Nat) (events : List (Int × Int)) :
    (runTracker historySize events).bins.length
      = (RateTracker.NewRateTracker historySize).bins.length :=
  length_foldl_AddAt events _

theorem countAt_of_binsInv (r : RateTracker) (events : List (Int × Int))
    (now : Int) (t : Nat)
    (hinv : BinsInv r events) (hnow : ∀ e ∈ events, e.1 ≤ now)
    (ht : t ≤ r.bins.length) :
    (r.CountAt now t).1 = sumWindow events (now - t + 1) now := by
  have hL : (r.truncateAndShift now).bins.length = r.bins.length :=
    RateTracker.length_truncateAndShift r now
  have hlast : (r.truncateAndShift now).lastBin = now :=
    RateTracker.lastBin_truncateAndShift r now
  have h1' := RateTracker.binsInv_getD_truncateAndShift hinv hnow
  have hfirst : (r.truncateAndShift now).firstBinTime
      = now - (r.bins.length : Int) + 1 := by
    simp only [RateTracker.lastBin, hL] at hlast
    omega
  show ((r.truncateAndShift now).bins.drop ((r.truncateAndShift now).bins.length - t)).sum
      = sumWindow events (now - t + 1) now
  rw [sum_drop_eq_range, hL]
  have hrange := sumWindow_eq_range events (now - t + 1) t
  have harith : now - (t : Int) + 1 + t - 1 = now := by omega
  rw [harith] at hrange
  rw [hrange]
  have hcount : r.bins.length - (r.bins.length - t) = t := by omega
  rw [hcount]
  congr 1
  apply List.map_congr_left
  intro i hi
  rw [List.mem_range] at hi
  rw [h1' _ (by omega), hfirst]
  congr 1
  push_cast
  omega

/-- Claim C1 — **Rate-tracker correctness**: for a history of `addAt`
events whose times never move backwards (the carve-out made by the claim's
clock-jump proviso: a backward clock move loses history by design), and for
any query time `now` at or after every event, `countAt(now, t)` with
`t ≤ N` returns exactly the sum of the counts added at seconds in
`[now - t + 1, now]`.  Forward clock jumps, including ones so large that
the ring is fully reset, are covered. -/
theorem rateTracker_countAt_correct (historySize : Nat)
    (events : List (Int × Int)) (now : Int) (t : Nat)
    (hsorted : events.Pairwise (fun a b => a.1 ≤ b.1))
    (hnow : ∀ e ∈ events, e.1 ≤ now)
    (ht : t ≤ (RateTracker.NewRateTracker historySize).HistorySize) :
    ((runTracker historySize events).CountAt now t).1
      = sumWindow events (now - t + 1) now := by
  have hinv : BinsInv (runTracker historySize events) events := by
    have := binsInv_foldl events [] (RateTracker.NewRateTracker historySize)
      (binsInv_NewRateTracker historySize)
      (length_NewRateTracker_pos historySize) hsorted (by simp)
    simpa [runTracker] using this
  exact countAt_of_binsInv _ _ now t hinv hnow
    (by rw [length_runTracker]; exact ht)

/-- Witness for C1 at the concrete history of `TestRateTracker`'s first
phase: five adds, queried at `now = 33` with `t = 2`, counting the events
at seconds 32 and 33. -/
theorem rateTracker_countAt_correct_witness :
    ((runTracker 5 [(30, 2), (31, 3), (32, 4), (32, 1), (33, 1)]).CountAt 33 2).1
      = sumWindow [(30, 2), (31, 3), (32, 4), (32, 1), (33, 1)] (33 - 2 + 1) 33 :=
  rateTracker_countAt_correct 5 _ 33 2 (by decide) (by decide) (by decide)

/-! ## Tasks and the intrusive deque (task.go)

A `TaskDeque` is modelled as a `List Task` in head-to-tail order; the
intrusive `queuePrev`/`queueNext` pointers become list positions.  The Go
engine removes nodes it obtained from the running queue's `idToTask` map;
since that map and the deque always hold exactly the same set of tasks,
removal-by-node becomes removal of the (first) task with the given ID.
-/

namespace Tasq

/-- `Task` (Go): identity, payload and — meaningful only inside the
running queue — an absolute expiration instant.  (Lean's core library
already has a `Task` type, so the engine lives in the `Tasq` namespace.) -/
structure Task where
  ID : String
  Contents : String
  expiration : Int
  deriving DecidableEq, Repr

/-- `Task.DisconnectedCopy` (Go): a copy carrying only the visible
metadata (a fresh Go `Task` has the zero expiration). -/
def Task.DisconnectedCopy (t : Task) : Task :=
  { ID := t.ID, Contents := t.Contents, expiration := 0 }

/-- The deque of tasks (`TaskDeque` in Go), head first. -/
abbrev TaskDeque := List Task

namespace TaskDeque

/-- `PushLast` (Go): append at the tail. -/
def PushLast (d : TaskDeque) (t : Task) : TaskDeque := d ++ [t]

/-- `PushFirst` (Go): prepend at the head. -/
def PushFirst (d : TaskDeque) (t : Task) : TaskDeque := t :: d

/-- The scan of `PushByExpiration` (Go), expressed on the reversed deque
(tail first): walk from the tail over tasks whose expiration is strictly
after the new task's, and splice the new task in front of the first task
whose expiration is not. -/
def insertFromBack (t : Task) : List Task → List Task
  | [] => [t]
  | p :: rest =>
    if p.expiration > t.expiration then p :: insertFromBack t rest
    else t :: p :: rest

/-- `PushByExpiration` (Go): insert so that the deque stays non-decreasing
in expiration from head to tail, scanning from the tail backwards. -/
def PushByExpiration (d : TaskDeque) (t : Task) : TaskDeque :=
  (insertFromBack t d.reverse).reverse

/-- `PopFirst` (Go). -/
def PopFirst : TaskDeque → Option Task × TaskDeque
  | [] => (none, [])
  | t :: rest => (some t, rest)

/-- `PeekFirst` (Go). -/
def PeekFirst (d : TaskDeque) : Option Task := d.head?

/-- `Remove` (Go) of the node holding the task with the given ID (the
engine always removes a node found through the running queue's ID map). -/
def removeID : TaskDeque → String → TaskDeque
  | [], _ => []
  | t :: rest, id => if t.ID = id then rest else t :: removeID rest id

/-- `Len` (Go). -/
def Len (d : TaskDeque) : Nat := d.length

/-- `Bytes` (Go): total payload size. -/
def Bytes (d : TaskDeque) : Nat := (d.map (fun t => t.Contents.length)).sum

end TaskDeque

/-- `EncodedTask` (Go): the JSON-serializable task form. -/
structure EncodedTask where
  ID : String
  Contents : String
  Expiration : Int
  deriving DecidableEq, Repr

/-- `TaskDeque.Encode` (Go): the task sequence in deque order. -/
def TaskDeque.Encode (d : TaskDeque) : List EncodedTask :=
  d.map (fun t => { ID := t.ID, Contents := t.Contents, Expiration := t.expiration })

/-- `DecodeTaskDeque` (Go): rebuild the linked deque from the encoded
sequence, preserving order. -/
def DecodeTaskDeque (obj : List EncodedTask) : TaskDeque :=
  obj.map (fun et => { ID := et.ID, Contents := et.Contents, expiration := et.Expiration })

/-! ## ID minting (strconv.FormatInt(curID, 16) in queues.go) -/

/-- Two's complement wraparound of Go `int64` arithmetic. -/
def int64wrap (x : Int) : Int := (x + 2 ^ 63) % 2 ^ 64 - 2 ^ 63

/-- Lowercase hexadecimal digit characters, as produced by Go's
`strconv.FormatInt` with base 16. -/
def hexChar (n : Nat) : Char :=
  if n < 10 then Char.ofNat (48 + n) else Char.ofNat (87 + n)

/-- The digit loop of `strconv.FormatUint`: most significant digit first.
The `fuel` argument (always instantiated with the number itself, which
bounds the number of divisions) makes the recursion structural. -/
def hexDigitsAux : Nat → Nat → List Char
  | _, 0 => []
  | 0, _ + 1 => []
  | fuel + 1, n + 1 => hexDigitsAux fuel ((n + 1) / 16) ++ [hexChar ((n + 1) % 16)]

/-- Base-16 rendering of a natural number (`strconv.FormatUint`). -/
def natToHex (n : Nat) : String :=
  if n = 0 then "0" else String.mk (hexDigitsAux n n)

/-- `strconv.FormatInt(i, 16)`: sign, then base-16 digits. -/
def hexId (i : Int) : String :=
  if i < 0 then "-" ++ natToHex (-i).toNat else natToHex i.toNat

/-! ## Pending queue (queues.go) -/

/-- `PendingQueue` (Go): a deque plus the monotone ID counter. -/
structure PendingQueue where
  deque : TaskDeque
  curID : Int
  deriving DecidableEq, Repr

/-- `NewPendingQueue` (Go). -/
def NewPendingQueue : PendingQueue := { deque := [], curID := 0 }

namespace PendingQueue

/-- `AddTask` (Go): mint `hex(curID)`, advance `curID` (with `int64`
wraparound), enqueue at the tail, and return the new task. -/
def AddTask (p : PendingQueue) (contents : String) : Task × PendingQueue :=
  let task : Task := { Contents := contents, ID := hexId p.curID, expiration := 0 }
  (task, { deque := TaskDeque.PushLast p.deque task, curID := int64wrap (p.curID + 1) })

/-- `PushTask` (Go): re-enqueue an existing task at the tail. -/
def PushTask (p : PendingQueue) (t : Task) : PendingQueue :=
  { p with deque := TaskDeque.PushLast p.deque t }

/-- `PopTask` (Go): FIFO pop from the head. -/
def PopTask (p : PendingQueue) : Option Task × PendingQueue :=
  let (t, d) := TaskDeque.PopFirst p.deque
  (t, { p with deque := d })

/-- `PeekTask` (Go): detached copy of the head. -/
def PeekTask (p : PendingQueue) : Option Task :=
  (TaskDeque.PeekFirst p.deque).map Task.DisconnectedCopy

/-- `Len` (Go). -/
def Len (p : PendingQueue) : Nat := p.deque.length

/-- `Clear` (Go): drop the deque.  `curID` is untouched. -/
def Clear (p : PendingQueue) : PendingQueue := { p with deque := [] }

end PendingQueue

/-! ## Running queue (queues.go) -/

/-- `RunningQueue` (Go): the deque ordered by expiration plus the default
timeout.  The `idToTask` map always holds exactly the deque's tasks, so it
is represented by lookup in the deque. -/
structure RunningQueue where
  deque : TaskDeque
  timeout : Int
  deriving DecidableEq, Repr

/-- `NewRunningQueue` (Go). -/
def NewRunningQueue (timeout : Int) : RunningQueue := { deque := [], timeout := timeout }

namespace RunningQueue

/-- The `idToTask` lookup (Go map access). -/
def findID (r : RunningQueue) (id : String) : Option Task :=
  r.deque.find? (fun t => t.ID == id)

/-- `StartedTask` (Go): set the task's expiration to `now` plus the
override (or the queue's default timeout), and insert it by expiration.
The updated task is returned as well, since Go mutates the caller's
pointer. -/
def StartedTask (r : RunningQueue) (t : Task) (timeout : Option Int) (now : Int) :
    Task × RunningQueue :=
  let timeout := timeout.getD r.timeout
  let t := { t with expiration := now + timeout }
  (t, { r with deque := TaskDeque.PushByExpiration r.deque t })

/-- `PopExpired` (Go): pop the head if it has timed out; otherwise report
the head's expiration as the next time a task will expire. -/
def PopExpired (r : RunningQueue) (now : Int) : Option Task × Option Int × RunningQueue :=
  match r.deque with
  | [] => (none, none, r)
  | task :: rest =>
    if task.expiration > now then (none, some task.expiration, r)
    else (some task, none, { r with deque := rest })

/-- `Completed` (Go): remove and return the task with the given ID, or
`none` (leaving the queue unchanged) when it is not in the queue. -/
def Completed (r : RunningQueue) (id : String) : Option Task × RunningQueue :=
  match r.findID id with
  | none => (none, r)
  | some task => (some task, { r with deque := TaskDeque.removeID r.deque id })

/-- `Keepalive` (Go): restart the timeout of the identified task by
removing it and re-inserting it through `StartedTask`. -/
def Keepalive (r : RunningQueue) (id : String) (timeout : Option Int) (now : Int) :
    Bool × RunningQueue :=
  match r.findID id with
  | none => (false, r)
  | some task =>
    let r := { r with deque := TaskDeque.removeID r.deque id }
    let (_, r) := r.StartedTask task timeout now
    (true, r)

/-- `Len` (Go). -/
def Len (r : RunningQueue) : Nat := r.deque.length

/-- `NumExpired` (Go): walk from the head while tasks are expired. -/
def NumExpired (r : RunningQueue) (now : Int) : Nat :=
  (r.deque.takeWhile (fun t => !(t.expiration > now))).length

/-- `ExpireAll` (Go): set every expiration to the zero instant; return the
number of tasks. -/
def ExpireAll (r : RunningQueue) : Nat × RunningQueue :=
  (r.deque.length, { r with deque := r.deque.map (fun t => { t with expiration := 0 }) })

/-- `Clear` (Go): drop both structures. -/
def Clear (r : RunningQueue) : RunningQueue := { r with deque := [] }

end RunningQueue

/-! ## Per-context queue state (queues.go) -/

/-- `QueueState` (Go): the pending queue, the running queue, the
completion counter and the rate tracker of one context. -/
structure QueueState where
  pending : PendingQueue
  running : RunningQueue
  completionCounter : Int
  rateTracker : RateTracker
  deriving DecidableEq, Repr

/-- `NewQueueState` (Go): empty queues with the given task timeout and a
default-size rate tracker (`NewRateTracker(0)`). -/
def NewQueueState (timeout : Int) : QueueState :=
  { pending := NewPendingQueue, running := NewRunningQueue timeout,
    completionCounter := 0, rateTracker := RateTracker.NewRateTracker 0 }

namespace QueueState

/-- `Push` (Go): create a task in the pending queue; return its ID. -/
def Push (q : QueueState) (contents : String) : String × QueueState :=
  let (task, pending) := q.pending.AddTask contents
  (task.ID, { q with pending := pending })

/-- `Pop` (Go): prefer the pending queue; dip into the expired running
tasks only when it is empty; otherwise report the next expiry. -/
def Pop (q : QueueState) (now : Int) (timeout : Option Int) :
    Option Task × Option Int × QueueState :=
  match q.pending.PopTask with
  | (some nextPending, pending) =>
    let (t, running) := q.running.StartedTask nextPending timeout now
    (some t, none, { q with pending := pending, running := running })
  | (none, _) =>
    match q.running.PopExpired now with
    | (some nextExpired, _, running) =>
      let (t, running) := running.StartedTask nextExpired timeout now
      (some t, none, { q with running := running })
    | (none, nextTry, _) => (none, nextTry, q)

/-- The first loop of `PopBatch` (Go): pop up to `n` tasks from the
pending queue. -/
def popBatchPending : Nat → PendingQueue → List Task × PendingQueue
  | 0, p => ([], p)
  | Nat.succ k, p =>
    match p.PopTask with
    | (none, p) => ([], p)
    | (some t, p) =>
      let (ts, p') := popBatchPending k p
      (t :: ts, p')

/-- The second loop of `PopBatch` (Go): pop expired tasks while fewer
than the requested count have been gathered, remembering the `nextTry`
value of the last `PopExpired` call. -/
def popBatchExpired (now : Int) : Nat → RunningQueue → List Task × Option Int × RunningQueue
  | 0, r => ([], none, r)
  | Nat.succ k, r =>
    match r.PopExpired now with
    | (none, nextTry, r) => ([], nextTry, r)
    | (some t, _, r) =>
      let (ts, nextTry, r') := popBatchExpired now k r
      (t :: ts, nextTry, r')

/-- The final loop of `PopBatch` (Go): `StartedTask` on every drained
task. -/
def startAll (timeout : Option Int) (now : Int) :
    List Task → RunningQueue → List Task × RunningQueue
  | [], r => ([], r)
  | t :: rest, r =>
    let (t', r') := r.StartedTask t timeout now
    let (ts', r'') := startAll timeout now rest r'
    (t' :: ts', r'')

/-- `PopBatch` (Go): atomically pop at most `n` tasks, preferring pending
tasks; when fewer than `n` are returned, the second component is the next
expiry observed by the last failing `PopExpired`. -/
def PopBatch (q : QueueState) (n : Nat) (now : Int) (timeout : Option Int) :
    List Task × Option Int × QueueState :=
  let (tasks₁, pending) := popBatchPending n q.pending
  let (tasks₂, nextTry, running) := popBatchExpired now (n - tasks₁.length) q.running
  let (tasks, running') := startAll timeout now (tasks₁ ++ tasks₂) running
  (tasks, nextTry, { q with pending := pending, running := running' })

/-- `Completed` (Go): remove the identified task from the running queue;
on success bump the completion counter and feed the rate tracker. -/
def Completed (q : QueueState) (id : String) (now : Int) : Bool × QueueState :=
  match q.running.Completed id with
  | (some _, running) =>
    (true, { q with running := running,
                    completionCounter := q.completionCounter + 1,
                    rateTracker := q.rateTracker.Add now 1 })
  | (none, _) => (false, q)

/-- `Keepalive` (Go): restart the identified task's timeout. -/
def Keepalive (q : QueueState) (id : String) (timeout : Option Int) (now : Int) :
    Bool × QueueState :=
  let (ok, running) := q.running.Keepalive id timeout now
  (ok, { q with running := running })

/-- `Clear` (Go): empty both queues, zero the completion counter, reset
the rate tracker.  The pending queue's `curID` is untouched. -/
def Clear (q : QueueState) : QueueState :=
  { q with pending := q.pending.Clear, running := q.running.Clear,
           completionCounter := 0, rateTracker := q.rateTracker.Reset }

/-- `Cleared` (Go): the queue is effectively fresh. -/
def Cleared (q : QueueState) : Bool :=
  q.pending.Len == 0 && q.running.Len == 0 && q.completionCounter == 0

/-- `ExpireAll` (Go): mark every running task as expired. -/
def ExpireAll (q : QueueState) : Nat × QueueState :=
  let (n, running) := q.running.ExpireAll
  (n, { q with running := running })

/-- The loop of `QueueExpired` (Go), expressed on the running deque:
repeatedly `PopExpired` and collect the moved tasks in order. -/
def queueExpiredAux (now : Int) : TaskDeque → TaskDeque × TaskDeque
  | [] => ([], [])
  | t :: rest =>
    if t.expiration > now then ([], t :: rest)
    else
      let (moved, remaining) := queueExpiredAux now rest
      (t :: moved, remaining)

/-- `QueueExpired` (Go): move every expired running task back to the tail
of the pending queue, in deque order; return how many moved. -/
def QueueExpired (q : QueueState) (now : Int) : Nat × QueueState :=
  let (moved, remaining) := queueExpiredAux now q.running.deque
  (moved.length,
   { q with pending := { q.pending with deque := q.pending.deque ++ moved },
            running := { q.running with deque := remaining } })

end QueueState

/-! ## Snapshot codec (queues.go / task.go) -/

/-- `EncodedPendingQueue` (Go). -/
structure EncodedPendingQueue where
  Deque : List EncodedTask
  CurID : Int
  deriving DecidableEq, Repr

/-- `EncodedRunningQueue` (Go). -/
structure EncodedRunningQueue where
  Deque : List EncodedTask
  Timeout : Int
  deriving DecidableEq, Repr

/-- `EncodedQueueState` (Go). -/
structure EncodedQueueState where
  Pending : EncodedPendingQueue
  Running : EncodedRunningQueue
  Completed : Int
  RateTracker : EncodedRateTracker
  deriving DecidableEq, Repr

/-- `ContextState` (Go): one named context in the snapshot container. -/
structure ContextState where
  Name : String
  Encoded : EncodedQueueState
  deriving DecidableEq, Repr

/-- `PendingQueue.Encode` (Go). -/
def PendingQueue.Encode (p : PendingQueue) : EncodedPendingQueue :=
  { Deque := TaskDeque.Encode p.deque, CurID := p.curID }

/-- `DecodePendingQueue` (Go). -/
def DecodePendingQueue (obj : EncodedPendingQueue) : PendingQueue :=
  { deque := DecodeTaskDeque obj.Deque, curID := obj.CurID }

/-- `RunningQueue.Encode` (Go). -/
def RunningQueue.Encode (r : RunningQueue) : EncodedRunningQueue :=
  { Deque := TaskDeque.Encode r.deque, Timeout := r.timeout }

/-- `DecodeRunningQueue` (Go): rebuild the deque (and with it the
`idToTask` index, represented here by deque lookup). -/
def DecodeRunningQueue (obj : EncodedRunningQueue) : RunningQueue :=
  { deque := DecodeTaskDeque obj.Deque, timeout := obj.Timeout }

/-- `QueueState.Encode` (Go). -/
def QueueState.Encode (q : QueueState) : EncodedQueueState :=
  { Pending := q.pending.Encode, Running := q.running.Encode,
    Completed := q.completionCounter, RateTracker := q.rateTracker.Encode }

/-- `DecodeQueueState` (Go). -/
def DecodeQueueState (obj : EncodedQueueState) : QueueState :=
  { pending := DecodePendingQueue obj.Pending,
    running := DecodeRunningQueue obj.Running,
    completionCounter := obj.Completed,
    rateTracker := DecodeRateTracker (some obj.RateTracker) }

/-- `QueueStateMux.Serialize` (Go), at the level of the per-context
states it writes: one `ContextState` entry per context.  (The Go function
additionally wraps the entries in a ZIP container of JSON documents.) -/
def SerializeQueueStateMux (queues : List (String × QueueState)) : List ContextState :=
  queues.map (fun nq => { Name := nq.1, Encoded := nq.2.Encode })

/-- `DeserializeQueueStateMux` (Go): decode every entry, rebuilding the
name-to-state mapping (with a zero `users` count, not modelled here). -/
def DeserializeQueueStateMux (files : List ContextState) : List (String × QueueState) :=
  files.map (fun f => (f.Name, DecodeQueueState f.Encoded))

/-! ### Snapshot round-trip (claim C3) -/

theorem decodeTaskDeque_encode (d : TaskDeque) : DecodeTaskDeque (TaskDeque.Encode d) = d := by
  simp only [DecodeTaskDeque, TaskDeque.Encode, List.map_map]
  exact List.map_id d

theorem decodeQueueState_encode (q : QueueState) : DecodeQueueState q.Encode = q := by
  simp only [DecodeQueueState, QueueState.Encode, DecodePendingQueue, PendingQueue.Encode,
    DecodeRunningQueue, RunningQueue.Encode, DecodeRateTracker, RateTracker.Encode,
    decodeTaskDeque_encode]

/-- Claim C3 — **Snapshot round-trip**: decoding an encoded queue state
restores it exactly — every context's pending deque order and `curID`,
running deque with expirations and timeout, completion counter and rate
tracker — so the restored engine answers every read-only operation and
every subsequent mutation exactly as the original state would; and the
whole multi-context snapshot round-trips the same way. -/
theorem snapshot_roundTrip :
    (∀ q : QueueState, DecodeQueueState q.Encode = q) ∧
    (∀ m : List (String × QueueState),
      DeserializeQueueStateMux (SerializeQueueStateMux m) = m) := by
  refine ⟨decodeQueueState_encode, ?_⟩
  intro m
  simp only [DeserializeQueueStateMux, SerializeQueueStateMux, List.map_map]
  have : (fun f : ContextState => (f.Name, DecodeQueueState f.Encoded)) ∘
      (fun nq : String × QueueState => ContextState.mk nq.1 nq.2.Encode)
      = fun nq : String × QueueState => (nq.1, DecodeQueueState nq.2.Encode) := rfl
  rw [this]
  have : (fun nq : String × QueueState => (nq.1, DecodeQueueState nq.2.Encode))
      = fun nq : String × QueueState => nq := by
    funext nq
    rw [decodeQueueState_encode]
  rw [this]
  exact List.map_id m

/-! ### Pop order (claim C4) -/

/-- The tasks returned by `k` successive `Pop` calls (all at time `now`
with the same timeout override). -/
def popSeq (now : Int) (tmo : Option Int) : Nat → QueueState → List Task
  | 0, _ => []
  | Nat.succ k, q =>
    match q.Pop now tmo with
    | (some t, _, q') => t :: popSeq now tmo k q'
    | (none, _, _) => []

theorem pop_of_pending_cons (q : QueueState) (now : Int) (tmo : Option Int)
    (t : Task) (rest : TaskDeque) (h : q.pending.deque = t :: rest) :
    q.Pop now tmo =
      (some { t with expiration := now + tmo.getD q.running.timeout }, none,
        { q with pending := { q.pending with deque := rest },
                 running := (q.running.StartedTask t tmo now).2 }) := by
  simp only [QueueState.Pop, PendingQueue.PopTask, TaskDeque.PopFirst, h,
    RunningQueue.StartedTask]

theorem pop_of_pending_nil (q : QueueState) (now : Int) (tmo : Option Int)
    (h : q.pending.deque = []) :
    (q.running.deque = [] → q.Pop now tmo = (none, none, q)) ∧
    (∀ h₁ r₁, q.running.deque = h₁ :: r₁ → h₁.expiration > now →
      q.Pop now tmo = (none, some h₁.expiration, q)) ∧
    (∀ h₁ r₁, q.running.deque = h₁ :: r₁ → ¬h₁.expiration > now →
      q.Pop now tmo =
        (some { h₁ with expiration := now + tmo.getD q.running.timeout }, none,
          { q with running :=
              ({ q.running with deque := r₁ }.StartedTask h₁ tmo now).2 })) := by
  refine ⟨?_, ?_, ?_⟩
  · intro hr
    simp only [QueueState.Pop, PendingQueue.PopTask, TaskDeque.PopFirst, h,
      RunningQueue.PopExpired, hr]
  · intro h₁ r₁ hr hexp
    simp only [QueueState.Pop, PendingQueue.PopTask, TaskDeque.PopFirst, h,
      RunningQueue.PopExpired, hr, if_pos hexp]
  · intro h₁ r₁ hr hexp
    simp only [QueueState.Pop, PendingQueue.PopTask, TaskDeque.PopFirst, h,
      RunningQueue.PopExpired, hr, if_neg hexp, RunningQueue.StartedTask]

theorem popSeq_take (now : Int) (tmo : Option Int) (k : Nat) (q : QueueState)
    (hk : k ≤ q.pending.deque.length) :
    popSeq now tmo k q
      = (q.pending.deque.take k).map
          (fun t => { t with expiration := now + tmo.getD q.running.timeout }) := by
  induction k generalizing q with
  | zero => simp [popSeq]
  | succ k ih =>
    cases hd : q.pending.deque with
    | nil => rw [hd] at hk; simp at hk
    | cons t rest =>
      have hpop := pop_of_pending_cons q now tmo t rest hd
      show (match q.Pop now tmo with
        | (some t, _, q') => t :: popSeq now tmo k q'
        | (none, _, _) => []) = _
      simp only [hpop, List.take_succ_cons, List.map_cons]
      have hlen : k ≤ rest.length := by
        rw [hd] at hk
        simpa using hk
      congr 1
      rw [ih _ (by simpa using hlen)]
      exact rfl

/-- Claim C4 — **Pop order**: within a context, `Pop` delivers the head
(earliest-pushed task) of the pending queue whenever it is non-empty and
then never consults the running queue's expired tasks; when the pending
queue is empty it pops the running queue's head exactly when that head has
expired, and otherwise returns no task together with the head's expiration
(or nothing at all when no task is running).  Consequently `k` successive
pops return the first `k` pending tasks in push (FIFO) order. -/
theorem queueState_pop_fifo (q : QueueState) (now : Int) (tmo : Option Int) :
    (∀ t rest, q.pending.deque = t :: rest →
      q.Pop now tmo =
        (some { t with expiration := now + tmo.getD q.running.timeout }, none,
          { q with pending := { q.pending with deque := rest },
                   running := (q.running.StartedTask t tmo now).2 })) ∧
    (q.pending.deque = [] →
      (q.running.deque = [] → q.Pop now tmo = (none, none, q)) ∧
      (∀ h₁ r₁, q.running.deque = h₁ :: r₁ → h₁.expiration > now →
        q.Pop now tmo = (none, some h₁.expiration, q)) ∧
      (∀ h₁ r₁, q.running.deque = h₁ :: r₁ → ¬h₁.expiration > now →
        q.Pop now tmo =
          (some { h₁ with expiration := now + tmo.getD q.running.timeout }, none,
            { q with running :=
                ({ q.running with deque := r₁ }.StartedTask h₁ tmo now).2 }))) ∧
    (∀ k, k ≤ q.pending.deque.length →
      popSeq now tmo k q
        = (q.pending.deque.take k).map
            (fun t => { t with expiration := now + tmo.getD q.running.timeout })) :=
  ⟨fun t rest h => pop_of_pending_cons q now tmo t rest h,
   fun h => pop_of_pending_nil q now tmo h,
   fun k hk => popSeq_take now tmo k q hk⟩

/-- Witness for C4 at a concrete state: two pending tasks (pushed "a"
then "b") and an expired running task; two pops return "a" then "b". -/
theorem queueState_pop_fifo_witness :
    let q0 := ((((NewQueueState 10).Push "c").2.Pop 0 none).2.2.ExpireAll).2
    let q := ((q0.Push "a").2.Push "b").2
    popSeq 5 none 2 q
      = (q.pending.deque.take 2).map
          (fun t => { t with expiration := 5 + (none : Option Int).getD q.running.timeout })
      ∧ (popSeq 5 none 2 q).map Task.Contents = ["a", "b"] := by
  refine ⟨(queueState_pop_fifo _ 5 none).2.2 2 (by decide), by decide⟩

/-! ### Completion (claims C5 and C9) -/

theorem findID_isSome_iff (r : RunningQueue) (id : String) :
    (r.findID id).isSome ↔ ∃ t ∈ r.deque, t.ID = id := by
  unfold RunningQueue.findID
  rw [List.find?_isSome]
  constructor
  · rintro ⟨t, ht, hp⟩
    exact ⟨t, ht, by simpa using hp⟩
  · rintro ⟨t, ht, hp⟩
    exact ⟨t, ht, by simpa using hp⟩

theorem removeID_sublist (d : TaskDeque) (id : String) :
    List.Sublist (TaskDeque.removeID d id) d := by
  induction d with
  | nil => exact List.Sublist.refl []
  | cons t rest ih =>
    unfold TaskDeque.removeID
    split
    · exact List.sublist_cons_self t rest
    · exact ih.cons₂ t

theorem mem_removeID {d : TaskDeque} {id : String} {x : Task}
    (h : x ∈ TaskDeque.removeID d id) : x ∈ d :=
  (removeID_sublist d id).mem h

theorem removeID_id_not_mem {d : TaskDeque} {id : String}
    (hnodup : (d.map Task.ID).Nodup) :
    ∀ x ∈ TaskDeque.removeID d id, x.ID ≠ id := by
  induction d with
  | nil => intro x hx; simp [TaskDeque.removeID] at hx
  | cons t rest ih =>
    simp only [List.map_cons, List.nodup_cons] at hnodup
    obtain ⟨hhead, htail⟩ := hnodup
    intro x hx
    unfold TaskDeque.removeID at hx
    split at hx
    · next heq =>
      intro hxid
      exact hhead (by rw [heq, ← hxid]; exact List.mem_map_of_mem Task.ID hx)
    · next hne =>
      rcases List.mem_cons.mp hx with rfl | hx'
      · exact hne
      · exact ih htail x hx'

/-- Claim C5 — **Idempotent completion**: `Completed(id)` succeeds exactly
when `id` is in the running queue; on failure the whole state is
unchanged; on success the task is removed, the completion counter grows by
exactly one and the rate tracker gains one event, while the pending queue
and timeout are untouched; and (for states whose running IDs are distinct,
as in every reachable state) a second `Completed(id)` returns false. -/
theorem queueState_completed_spec (q : QueueState) (id : String) (now : Int) :
    ((q.Completed id now).1 = true ↔ ∃ t ∈ q.running.deque, t.ID = id) ∧
    ((q.Completed id now).1 = false → (q.Completed id now).2 = q) ∧
    ((q.Completed id now).1 = true →
      (q.Completed id now).2.completionCounter = q.completionCounter + 1 ∧
      (q.Completed id now).2.running.deque = TaskDeque.removeID q.running.deque id ∧
      (q.Completed id now).2.running.timeout = q.running.timeout ∧
      (q.Completed id now).2.pending = q.pending ∧
      (q.Completed id now).2.rateTracker = q.rateTracker.Add now 1) ∧
    ((q.running.deque.map Task.ID).Nodup →
      ∀ now₂, (((q.Completed id now).2).Completed id now₂).1 = false ∨
        (q.Completed id now).1 = false) := by
  cases hf : q.running.findID id with
  | none =>
    have hres : q.Completed id now = (false, q) := by
      simp only [QueueState.Completed, RunningQueue.Completed, hf]
    refine ⟨?_, ?_, ?_, ?_⟩
    · rw [hres]
      simp only [Bool.false_eq_true, false_iff]
      rintro ⟨t, ht, hid⟩
      have : (q.running.findID id).isSome := (findID_isSome_iff q.running id).mpr ⟨t, ht, hid⟩
      rw [hf] at this
      simp at this
    · intro _
      rw [hres]
    · intro habs
      rw [hres] at habs
      simp at habs
    · intro _ _
      right
      rw [hres]
  | some task =>
    have hres : q.Completed id now =
        (true, { q with running := { q.running with deque := TaskDeque.removeID q.running.deque id },
                        completionCounter := q.completionCounter + 1,
                        rateTracker := q.rateTracker.Add now 1 }) := by
      simp only [QueueState.Completed, RunningQueue.Completed, hf]
    refine ⟨?_, ?_, ?_, ?_⟩
    · rw [hres]
      simp only [true_iff]
      have : (q.running.findID id).isSome := by rw [hf]; rfl
      exact (findID_isSome_iff q.running id).mp this
    · intro habs
      rw [hres] at habs
      simp at habs
    · intro _
      rw [hres]
      exact ⟨rfl, rfl, rfl, rfl, rfl⟩
    · intro hnodup now₂
      left
      rw [hres]
      have hne : ∀ x ∈ TaskDeque.removeID q.running.deque id, ¬(x.ID == id) = true := by
        intro x hx
        simpa using removeID_id_not_mem hnodup x hx
      have hnone : RunningQueue.findID
          { q.running with deque := TaskDeque.removeID q.running.deque id } id = none := by
        unfold RunningQueue.findID
        exact List.find?_eq_none.mpr hne
      simp only [QueueState.Completed, RunningQueue.Completed, hnone]

/-- Witness for C5: a state holding one running task with ID "0"; its
completion succeeds, removes it, bumps the counter, and a second
completion fails. -/
theorem queueState_completed_spec_witness :
    let q := (((NewQueueState 10).Push "a").2.Pop 0 none).2.2
    ((q.Completed "0" 7).1 = true ↔ ∃ t ∈ q.running.deque, t.ID = "0") ∧
    ((q.Completed "0" 7).1 = false → (q.Completed "0" 7).2 = q) ∧
    ((q.Completed "0" 7).1 = true →
      (q.Completed "0" 7).2.completionCounter = q.completionCounter + 1 ∧
      (q.Completed "0" 7).2.running.deque = TaskDeque.removeID q.running.deque "0" ∧
      (q.Completed "0" 7).2.running.timeout = q.running.timeout ∧
      (q.Completed "0" 7).2.pending = q.pending ∧
      (q.Completed "0" 7).2.rateTracker = q.rateTracker.Add 7 1) ∧
    ((q.running.deque.map Task.ID).Nodup →
      ∀ now₂, (((q.Completed "0" 7).2).Completed "0" now₂).1 = false ∨
        (q.Completed "0" 7).1 = false) :=
  queueState_completed_spec _ "0" 7

/-! ### PopBatch next-expiry semantics (claim C10) -/

theorem popBatchPending_eq (n : Nat) (p : PendingQueue) :
    QueueState.popBatchPending n p
      = (p.deque.take n, { p with deque := p.deque.drop n }) := by
  induction n generalizing p with
  | zero => rfl
  | succ k ih =>
    obtain ⟨d, cid⟩ := p
    cases d with
    | nil => rfl
    | cons t rest =>
      show (t :: (QueueState.popBatchPending k ⟨rest, cid⟩).1,
            (QueueState.popBatchPending k ⟨rest, cid⟩).2) = _
      rw [ih]
      exact rfl

theorem popBatchExpired_append (now : Int) (k : Nat) (r : RunningQueue) :
    (QueueState.popBatchExpired now k r).1
        ++ (QueueState.popBatchExpired now k r).2.2.deque = r.deque ∧
    (QueueState.popBatchExpired now k r).2.2.timeout = r.timeout := by
  induction k generalizing r with
  | zero => exact ⟨rfl, rfl⟩
  | succ k ih =>
    obtain ⟨d, tmo⟩ := r
    cases d with
    | nil => exact ⟨rfl, rfl⟩
    | cons t rest =>
      by_cases hexp : t.expiration > now
      · simp only [QueueState.popBatchExpired, RunningQueue.PopExpired, if_pos hexp]
        exact ⟨by trivial, by trivial⟩
      · simp only [QueueState.popBatchExpired, RunningQueue.PopExpired, if_neg hexp]
        have := ih ⟨rest, tmo⟩
        exact ⟨by simpa using this.1, this.2⟩

theorem popBatchExpired_some_spec (now : Int) (k : Nat) (r : RunningQueue) (e : Int)
    (h : (QueueState.popBatchExpired now k r).2.1 = some e) :
    0 < k ∧ e > now ∧
    (QueueState.popBatchExpired now k r).2.2.deque
      = r.deque.dropWhile (fun x => !(x.expiration > now)) ∧
    ∃ t, (QueueState.popBatchExpired now k r).2.2.deque.head? = some t ∧
      t.expiration = e := by
  induction k generalizing r with
  | zero => simp [QueueState.popBatchExpired] at h
  | succ k ih =>
    obtain ⟨d, tmo⟩ := r
    cases d with
    | nil => simp [QueueState.popBatchExpired, RunningQueue.PopExpired] at h
    | cons t rest =>
      by_cases hexp : t.expiration > now
      · have hres : QueueState.popBatchExpired now (k + 1) ⟨t :: rest, tmo⟩
            = ([], some t.expiration, ⟨t :: rest, tmo⟩) := by
          simp only [QueueState.popBatchExpired, RunningQueue.PopExpired, if_pos hexp]
        rw [hres] at h ⊢
        simp only [Option.some.injEq] at h
        subst h
        refine ⟨Nat.succ_pos k, hexp, ?_, t, rfl, rfl⟩
        simp only [List.dropWhile_cons]
        rw [if_neg (by simpa using hexp)]
      · have hres : QueueState.popBatchExpired now (k + 1) ⟨t :: rest, tmo⟩
            = (t :: (QueueState.popBatchExpired now k ⟨rest, tmo⟩).1,
               (QueueState.popBatchExpired now k ⟨rest, tmo⟩).2.1,
               (QueueState.popBatchExpired now k ⟨rest, tmo⟩).2.2) := by
          simp only [QueueState.popBatchExpired, RunningQueue.PopExpired, if_neg hexp]
        rw [hres] at h ⊢
        simp only at h
        obtain ⟨-, he, hdrop, ht⟩ := ih ⟨rest, tmo⟩ h
        refine ⟨Nat.succ_pos k, he, ?_, ht⟩
        simp only [hdrop, List.dropWhile_cons]
        rw [if_pos (by simpa using hexp)]

/-- Claim C10 — **PopBatch next-expiry**: when `PopBatch(n)` can satisfy
the whole batch from the pending queue, the returned next-expiry time is
`none` — even when unexpired tasks sit in the running queue.  It is
`some e` only when the pending queue was exhausted first, and then `e` is
the expiration of the first unexpired running task, observed by the final
`PopExpired` call (so `e > now`). -/
theorem popBatch_nextTry_spec (q : QueueState) (n : Nat) (now : Int) (tmo : Option Int) :
    (n ≤ q.pending.deque.length → (q.PopBatch n now tmo).2.1 = none) ∧
    (∀ e, (q.PopBatch n now tmo).2.1 = some e →
      q.pending.deque.length < n ∧
      (q.PopBatch n now tmo).2.2.pending.deque = [] ∧
      e > now ∧
      ∃ t, (q.running.deque.dropWhile (fun x => !(x.expiration > now))).head? = some t ∧
        t.expiration = e ∧ t ∈ q.running.deque) := by
  have hnext : (q.PopBatch n now tmo).2.1
      = (QueueState.popBatchExpired now (n - (q.pending.deque.take n).length) q.running).2.1 := by
    simp only [QueueState.PopBatch, popBatchPending_eq]
  have hpend : (q.PopBatch n now tmo).2.2.pending.deque = q.pending.deque.drop n := by
    simp only [QueueState.PopBatch, popBatchPending_eq]
  constructor
  · intro hle
    rw [hnext, List.length_take, Nat.min_eq_left hle, Nat.sub_self]
    rfl
  · intro e he
    rw [hnext] at he
    obtain ⟨hk, hegt, hdrop, t, hhead, hte⟩ :=
      popBatchExpired_some_spec now _ q.running e he
    have hlt : q.pending.deque.length < n := by
      by_contra hge
      rw [List.length_take, Nat.min_eq_left (by omega), Nat.sub_self] at hk
      exact Nat.lt_irrefl 0 hk
    refine ⟨hlt, ?_, hegt, t, ?_, hte, ?_⟩
    · rw [hpend]
      exact List.drop_eq_nil_of_le (by omega)
    · rw [← hdrop]
      exact hhead
    · have happ := (popBatchExpired_append now
        (n - (q.pending.deque.take n).length) q.running).1
      have htmem : t ∈ (QueueState.popBatchExpired now
          (n - (q.pending.deque.take n).length) q.running).2.2.deque := by
        rw [hdrop] at hhead ⊢
        rw [← hdrop]
        exact List.mem_of_mem_head? (by rw [hdrop]; exact hhead)
      rw [← happ]
      exact List.mem_append_right _ htmem

/-- Witness for C10: one pending task and one unexpired running task;
`PopBatch 1` is satisfied from pending alone and reports no next-expiry;
`PopBatch 3` exhausts pending and reports the running head's expiry. -/
theorem popBatch_nextTry_spec_witness :
    let q1 := (((NewQueueState 10).Push "a").2.Pop 0 none).2.2
    let q := (q1.Push "b").2
    ((q.PopBatch 1 3 none).2.1 = none) ∧
    ((q.PopBatch 3 3 none).2.1 = some 10) ∧
    (∀ e, (q.PopBatch 3 3 none).2.1 = some e →
      q.pending.deque.length < 3 ∧
      (q.PopBatch 3 3 none).2.2.pending.deque = [] ∧
      e > 3 ∧
      ∃ t, (q.running.deque.dropWhile (fun x => !(x.expiration > 3))).head? = some t ∧
        t.expiration = e ∧ t ∈ q.running.deque) := by
  refine ⟨(popBatch_nextTry_spec _ 1 3 none).1 (by decide), by decide,
    fun e he => (popBatch_nextTry_spec _ 3 3 none).2 e he⟩

/-! ### The engine operations as a transition system

`Op` is one engine operation together with the clock value the Go code
would read from `time.Now()`; `applyOp` runs it against a queue state.
Reachable states are those produced by a list of operations from
`NewQueueState`.
-/

/-- One engine operation (with its observed clock values). -/
inductive Op where
  | push (contents : String)
  | pop (now : Int) (tmo : Option Int)
  | popBatch (n : Nat) (now : Int) (tmo : Option Int)
  | completed (id : String) (now : Int)
  | keepalive (id : String) (now : Int) (tmo : Option Int)
  | clear
  | expireAll
  | queueExpired (now : Int)
  deriving DecidableEq, Repr

/-- Run one operation, keeping only the resulting state. -/
def applyOp (q : QueueState) : Op → QueueState
  | Op.push c => (q.Push c).2
  | Op.pop now tmo => (q.Pop now tmo).2.2
  | Op.popBatch n now tmo => (q.PopBatch n now tmo).2.2
  | Op.completed id now => (q.Completed id now).2
  | Op.keepalive id now tmo => (q.Keepalive id tmo now).2
  | Op.clear => q.Clear
  | Op.expireAll => q.ExpireAll.2
  | Op.queueExpired now => (q.QueueExpired now).2

/-- Run a list of operations. -/
def applyOps (q : QueueState) (ops : List Op) : QueueState := ops.foldl applyOp q

/-! ### Running-queue expiration ordering (claim C8) -/

/-- Head-to-tail non-decreasing expiration. -/
def ExpSorted (d : TaskDeque) : Prop :=
  d.Pairwise (fun a b => a.expiration ≤ b.expiration)

theorem mem_insertFromBack {x t : Task} {l : List Task} :
    x ∈ TaskDeque.insertFromBack t l ↔ x = t ∨ x ∈ l := by
  induction l with
  | nil => simp [TaskDeque.insertFromBack]
  | cons p rest ih =>
    unfold TaskDeque.insertFromBack
    split
    · simp only [List.mem_cons, ih]
      tauto
    · simp only [List.mem_cons]

theorem insertFromBack_pairwise {t : Task} {l : List Task}
    (h : l.Pairwise (fun a b => b.expiration ≤ a.expiration)) :
    (TaskDeque.insertFromBack t l).Pairwise (fun a b => b.expiration ≤ a.expiration) := by
  induction l with
  | nil => simp [TaskDeque.insertFromBack]
  | cons p rest ih =>
    obtain ⟨hhead, htail⟩ := List.pairwise_cons.mp h
    unfold TaskDeque.insertFromBack
    split
    · next hgt =>
      rw [List.pairwise_cons]
      refine ⟨?_, ih htail⟩
      intro x hx
      rcases mem_insertFromBack.mp hx with rfl | hx'
      · omega
      · exact hhead x hx'
    · next hle =>
      rw [List.pairwise_cons]
      refine ⟨?_, h⟩
      intro x hx
      rcases List.mem_cons.mp hx with rfl | hx'
      · omega
      · have := hhead x hx'
        omega

theorem pushByExpiration_sorted {d : TaskDeque} (t : Task) (h : ExpSorted d) :
    ExpSorted (TaskDeque.PushByExpiration d t) := by
  unfold ExpSorted TaskDeque.PushByExpiration
  rw [List.pairwise_reverse]
  exact insertFromBack_pairwise (List.pairwise_reverse.mpr h)

theorem mem_pushByExpiration {x t : Task} {d : TaskDeque} :
    x ∈ TaskDeque.PushByExpiration d t ↔ x = t ∨ x ∈ d := by
  unfold TaskDeque.PushByExpiration
  rw [List.mem_reverse, mem_insertFromBack, List.mem_reverse]

theorem pairwise_of_forall_rel {α : Type} {R : α → α → Prop} (h : ∀ a b, R a b) :
    ∀ l : List α, l.Pairwise R := by
  intro l
  induction l with
  | nil => exact List.Pairwise.nil
  | cons a rest ih => exact List.Pairwise.cons (fun b _ => h a b) ih

theorem queueExpiredAux_append (now : Int) (d : TaskDeque) :
    (QueueState.queueExpiredAux now d).1 ++ (QueueState.queueExpiredAux now d).2 = d := by
  induction d with
  | nil => rfl
  | cons t rest ih =>
    unfold QueueState.queueExpiredAux
    split
    · rfl
    · simpa using ih

theorem startAll_sorted (tmo : Option Int) (now : Int) (ts : List Task)
    (r : RunningQueue) (h : ExpSorted r.deque) :
    ExpSorted ((QueueState.startAll tmo now ts r).2).deque := by
  induction ts generalizing r with
  | nil => exact h
  | cons t rest ih =>
    exact ih _ (pushByExpiration_sorted _ h)

theorem runningSorted_applyOp (q : QueueState) (op : Op)
    (h : ExpSorted q.running.deque) : ExpSorted ((applyOp q op).running.deque) := by
  cases op with
  | push c => exact h
  | pop now tmo =>
    cases hd : q.pending.deque with
    | cons t rest =>
      rw [show applyOp q (Op.pop now tmo) = (q.Pop now tmo).2.2 from rfl,
        pop_of_pending_cons q now tmo t rest hd]
      exact pushByExpiration_sorted _ h
    | nil =>
      have hspec := pop_of_pending_nil q now tmo hd
      cases hr : q.running.deque with
      | nil =>
        rw [show applyOp q (Op.pop now tmo) = (q.Pop now tmo).2.2 from rfl, hspec.1 hr]
        exact h
      | cons h₁ r₁ =>
        by_cases hexp : h₁.expiration > now
        · rw [show applyOp q (Op.pop now tmo) = (q.Pop now tmo).2.2 from rfl,
            hspec.2.1 h₁ r₁ hr hexp]
          exact h
        · rw [show applyOp q (Op.pop now tmo) = (q.Pop now tmo).2.2 from rfl,
            hspec.2.2 h₁ r₁ hr hexp]
          apply pushByExpiration_sorted
          rw [hr] at h
          exact (List.pairwise_cons.mp h).2
  | popBatch n now tmo =>
    show ExpSorted ((q.PopBatch n now tmo).2.2.running.deque)
    simp only [QueueState.PopBatch]
    apply startAll_sorted
    have happ := (popBatchExpired_append now (n - (QueueState.popBatchPending n q.pending).1.length) q.running).1
    have : List.Sublist
        ((QueueState.popBatchExpired now (n - (QueueState.popBatchPending n q.pending).1.length) q.running)).2.2.deque
        q.running.deque := by
      rw [← happ]
      exact List.sublist_append_right _ _
    exact List.Pairwise.sublist this h
  | completed id now =>
    cases hf : q.running.findID id with
    | none =>
      show ExpSorted ((q.Completed id now).2.running.deque)
      simp only [QueueState.Completed, RunningQueue.Completed, hf]
      exact h
    | some task =>
      show ExpSorted ((q.Completed id now).2.running.deque)
      simp only [QueueState.Completed, RunningQueue.Completed, hf]
      exact List.Pairwise.sublist (removeID_sublist _ _) h
  | keepalive id now tmo =>
    cases hf : q.running.findID id with
    | none =>
      show ExpSorted ((q.Keepalive id tmo now).2.running.deque)
      simp only [QueueState.Keepalive, RunningQueue.Keepalive, hf]
      exact h
    | some task =>
      show ExpSorted ((q.Keepalive id tmo now).2.running.deque)
      simp only [QueueState.Keepalive, RunningQueue.Keepalive, hf, RunningQueue.StartedTask]
      exact pushByExpiration_sorted _ (List.Pairwise.sublist (removeID_sublist _ _) h)
  | clear => exact List.Pairwise.nil
  | expireAll =>
    show ExpSorted ((q.ExpireAll).2.running.deque)
    simp only [QueueState.ExpireAll, RunningQueue.ExpireAll]
    rw [ExpSorted, List.pairwise_map]
    exact pairwise_of_forall_rel (fun a b => le_refl 0) q.running.deque
  | queueExpired now =>
    show ExpSorted ((q.QueueExpired now).2.running.deque)
    simp only [QueueState.QueueExpired]
    have : List.Sublist (QueueState.queueExpiredAux now q.running.deque).2 q.running.deque := by
      conv_rhs => rw [← queueExpiredAux_append now q.running.deque]
      exact List.sublist_append_right _ _
    exact List.Pairwise.sublist this h

theorem runningSorted_applyOps (q : QueueState) (ops : List Op)
    (h : ExpSorted q.running.deque) : ExpSorted ((applyOps q ops).running.deque) := by
  induction ops generalizing q with
  | nil => exact h
  | cons op rest ih => exact ih _ (runningSorted_applyOp q op h)

/-- Claim C8 — **Running-queue monotonicity**: in every state reachable
through Push, Pop, PopBatch, Keepalive, Completed, ExpireAll, QueueExpired
and Clear, the running deque is non-decreasing in expiration from head to
tail; in particular the head's expiration is at most that of every other
member.  Moreover `PushByExpiration` on any non-decreasing deque yields a
non-decreasing deque containing the inserted task. -/
theorem running_expiration_sorted :
    (∀ (timeout : Int) (ops : List Op),
      ExpSorted ((applyOps (NewQueueState timeout) ops).running.deque)) ∧
    (∀ (timeout : Int) (ops : List Op) (h₁ : Task) (rest : TaskDeque),
      (applyOps (NewQueueState timeout) ops).running.deque = h₁ :: rest →
      ∀ t ∈ rest, h₁.expiration ≤ t.expiration) ∧
    (∀ (d : TaskDeque) (t : Task), ExpSorted d →
      ExpSorted (TaskDeque.PushByExpiration d t) ∧
      t ∈ TaskDeque.PushByExpiration d t) := by
  have hreach : ∀ (timeout : Int) (ops : List Op),
      ExpSorted ((applyOps (NewQueueState timeout) ops).running.deque) :=
    fun timeout ops => runningSorted_applyOps _ ops List.Pairwise.nil
  refine ⟨hreach, ?_, ?_⟩
  · intro timeout ops h₁ rest hd t ht
    have := hreach timeout ops
    rw [ExpSorted, hd, List.pairwise_cons] at this
    exact this.1 t ht
  · intro d t h
    exact ⟨pushByExpiration_sorted t h, mem_pushByExpiration.mpr (Or.inl rfl)⟩

/-- Witness for C8: a trace that pops twice with different timeouts (so
the second inserted task must splice before the tail), plus a concrete
`PushByExpiration` into a sorted deque. -/
theorem running_expiration_sorted_witness :
    ExpSorted ((applyOps (NewQueueState 10)
      [Op.push "a", Op.push "b", Op.pop 0 none, Op.pop 0 (some 3)]).running.deque) ∧
    (ExpSorted (TaskDeque.PushByExpiration
      [⟨"0", "a", 4⟩, ⟨"1", "b", 9⟩] ⟨"2", "c", 6⟩) ∧
      (⟨"2", "c", 6⟩ : Task) ∈ TaskDeque.PushByExpiration
        [⟨"0", "a", 4⟩, ⟨"1", "b", 9⟩] ⟨"2", "c", 6⟩) :=
  ⟨running_expiration_sorted.1 10 _,
   running_expiration_sorted.2.2 [⟨"0", "a", 4⟩, ⟨"1", "b", 9⟩] ⟨"2", "c", 6⟩
     (by unfold ExpSorted; decide)⟩

/-! ### Minted IDs are unique (claims C6 and C9): hex formatting -/

theorem hexChar_inj_lt : ∀ a < 16, ∀ b < 16, hexChar a = hexChar b → a = b := by decide

theorem hexDigitsAux_eq_digits (fuel : Nat) :
    ∀ n : Nat, n ≤ fuel → hexDigitsAux fuel n = (Nat.digits 16 n).reverse.map hexChar := by
  induction fuel with
  | zero =>
    intro n hn
    interval_cases n
    rw [Nat.digits_zero]
    rfl
  | succ fuel ih =>
    intro n hn
    cases n with
    | zero =>
      rw [Nat.digits_zero]
      rfl
    | succ m =>
      show hexDigitsAux (fuel + 1) (m + 1) = _
      have hdiv : (m + 1) / 16 ≤ fuel := by
        have := Nat.div_le_self (m + 1) 16
        have hlt : (m + 1) / 16 < m + 1 := Nat.div_lt_self (Nat.succ_pos m) (by omega)
        omega
      have hstep : hexDigitsAux (fuel + 1) (m + 1)
          = hexDigitsAux fuel ((m + 1) / 16) ++ [hexChar ((m + 1) % 16)] := rfl
      rw [hstep, ih _ hdiv, Nat.digits_def' (by norm_num : 1 < 16) (Nat.succ_pos m)]
      simp

theorem map_hexChar_inj : ∀ l₁ l₂ : List Nat, (∀ x ∈ l₁, x < 16) → (∀ x ∈ l₂, x < 16) →
    l₁.map hexChar = l₂.map hexChar → l₁ = l₂ := by
  intro l₁
  induction l₁ with
  | nil =>
    intro l₂ _ _ h
    cases l₂ with
    | nil => rfl
    | cons b bs => simp at h
  | cons a as ih =>
    intro l₂ h₁ h₂ h
    cases l₂ with
    | nil => simp at h
    | cons b bs =>
      simp only [List.map_cons, List.cons.injEq] at h
      have hab : a = b :=
        hexChar_inj_lt a (h₁ a (List.mem_cons_self a as)) b
          (h₂ b (List.mem_cons_self b bs)) h.1
      have : as = bs := ih bs (fun x hx => h₁ x (List.mem_cons_of_mem a hx))
        (fun x hx => h₂ x (List.mem_cons_of_mem b hx)) h.2
      rw [hab, this]

theorem natToHex_inj : Function.Injective natToHex := by
  intro a b h
  unfold natToHex at h
  have hdig : ∀ n : Nat, ∀ x ∈ Nat.digits 16 n, x < 16 :=
    fun n x hx => Nat.digits_lt_base (by norm_num) hx
  split_ifs at h with ha hb hb
  · omega
  · -- a = 0, b ≠ 0: "0" cannot be a digit rendering of a positive number
    exfalso
    rw [hexDigitsAux_eq_digits b b (le_refl b)] at h
    have hd : (Nat.digits 16 b).reverse.map hexChar = ['0'] := by
      have := congrArg String.data h
      simpa using this.symm
    have hzero : Nat.digits 16 b = [0] := by
      have h16 : ∀ x ∈ (Nat.digits 16 b).reverse, x < 16 := by
        intro x hx
        exact hdig b x (List.mem_reverse.mp hx)
      have h0 : ([0] : List Nat).map hexChar = ['0'] := rfl
      have := map_hexChar_inj (Nat.digits 16 b).reverse [0] h16 (by norm_num) (by rw [hd, h0])
      have hrev := congrArg List.reverse this
      simpa using hrev
    have hb' := Nat.ofDigits_digits 16 b
    rw [hzero] at hb'
    simp [Nat.ofDigits] at hb'
    omega
  · -- a ≠ 0, b = 0: symmetric
    exfalso
    rw [hexDigitsAux_eq_digits a a (le_refl a)] at h
    have hd : (Nat.digits 16 a).reverse.map hexChar = ['0'] := by
      have := congrArg String.data h
      simpa using this
    have hzero : Nat.digits 16 a = [0] := by
      have h16 : ∀ x ∈ (Nat.digits 16 a).reverse, x < 16 := by
        intro x hx
        exact hdig a x (List.mem_reverse.mp hx)
      have h0 : ([0] : List Nat).map hexChar = ['0'] := rfl
      have := map_hexChar_inj (Nat.digits 16 a).reverse [0] h16 (by norm_num) (by rw [hd, h0])
      have hrev := congrArg List.reverse this
      simpa using hrev
    have ha' := Nat.ofDigits_digits 16 a
    rw [hzero] at ha'
    simp [Nat.ofDigits] at ha'
    omega
  · -- both nonzero
    rw [hexDigitsAux_eq_digits a a (le_refl a), hexDigitsAux_eq_digits b b (le_refl b)] at h
    have hdata := congrArg String.data h
    simp only at hdata
    have : (Nat.digits 16 a).reverse = (Nat.digits 16 b).reverse :=
      map_hexChar_inj _ _ (fun x hx => hdig a x (List.mem_reverse.mp hx))
        (fun x hx => hdig b x (List.mem_reverse.mp hx)) hdata
    have hdigeq : Nat.digits 16 a = Nat.digits 16 b := by
      have := congrArg List.reverse this
      simpa using this
    calc a = Nat.ofDigits 16 (Nat.digits 16 a) := (Nat.ofDigits_digits 16 a).symm
      _ = Nat.ofDigits 16 (Nat.digits 16 b) := by rw [hdigeq]
      _ = b := Nat.ofDigits_digits 16 b

theorem hexId_natCast (k : Nat) : hexId (k : Int) = natToHex k := by
  unfold hexId
  rw [if_neg (by omega)]
  simp

theorem hexId_natCast_inj {a b : Nat} (h : hexId (a : Int) = hexId (b : Int)) : a = b := by
  rw [hexId_natCast, hexId_natCast] at h
  exact natToHex_inj h

theorem int64wrap_eq_self {x : Int} (h1 : -(2 ^ 63) ≤ x) (h2 : x < 2 ^ 63) :
    int64wrap x = x := by
  unfold int64wrap
  omega

/-! ### Clear preserves `curID`; pushed IDs never repeat (claim C6) -/

/-- The number of pushes in a trace. -/
def countPush : List Op → Nat
  | [] => 0
  | Op.push _ :: rest => countPush rest + 1
  | _ :: rest => countPush rest

/-- The IDs returned by the pushes of a trace, in order. -/
def mintedIds (q : QueueState) : List Op → List String
  | [] => []
  | Op.push c :: rest => (q.Push c).1 :: mintedIds (q.Push c).2 rest
  | op :: rest => mintedIds (applyOp q op) rest

theorem curID_applyOp_nonpush (q : QueueState) (op : Op)
    (h : ∀ c, op ≠ Op.push c) :
    (applyOp q op).pending.curID = q.pending.curID := by
  cases op with
  | push c => exact absurd rfl (h c)
  | pop now tmo =>
    show (q.Pop now tmo).2.2.pending.curID = q.pending.curID
    cases hd : q.pending.deque with
    | cons t rest => rw [pop_of_pending_cons q now tmo t rest hd]
    | nil =>
      have hspec := pop_of_pending_nil q now tmo hd
      cases hr : q.running.deque with
      | nil => rw [hspec.1 hr]
      | cons h₁ r₁ =>
        by_cases hexp : h₁.expiration > now
        · rw [hspec.2.1 h₁ r₁ hr hexp]
        · rw [hspec.2.2 h₁ r₁ hr hexp]
  | popBatch n now tmo =>
    show (q.PopBatch n now tmo).2.2.pending.curID = q.pending.curID
    simp only [QueueState.PopBatch, popBatchPending_eq]
  | completed id now =>
    show (q.Completed id now).2.pending.curID = q.pending.curID
    cases hf : q.running.findID id <;>
      simp only [QueueState.Completed, RunningQueue.Completed, hf]
  | keepalive id now tmo => rfl
  | clear => rfl
  | expireAll => rfl
  | queueExpired now => rfl

theorem curID_push (q : QueueState) (c : String) :
    (q.Push c).2.pending.curID = int64wrap (q.pending.curID + 1) := rfl

theorem mintedIds_eq (ops : List Op) : ∀ (q : QueueState),
    0 ≤ q.pending.curID →
    q.pending.curID + countPush ops < 2 ^ 63 →
    mintedIds q ops
      = (List.range (countPush ops)).map (fun i : Nat => hexId (q.pending.curID + i)) ∧
    (applyOps q ops).pending.curID = q.pending.curID + countPush ops := by
  induction ops with
  | nil =>
    intro q h0 hb
    exact ⟨rfl, by simp [applyOps, countPush]⟩
  | cons op rest ih =>
    intro q h0 hb
    cases op with
    | push c =>
      have hcp : countPush (Op.push c :: rest) = countPush rest + 1 := rfl
      rw [hcp] at hb ⊢
      have hwrap : (q.Push c).2.pending.curID = q.pending.curID + 1 := by
        rw [curID_push]
        exact int64wrap_eq_self (by omega) (by omega)
      have hih := ih (q.Push c).2 (by omega) (by rw [hwrap]; push_cast at hb ⊢; omega)
      constructor
      · show (q.Push c).1 :: mintedIds (q.Push c).2 rest = _
        rw [hih.1, hwrap]
        rw [List.range_succ_eq_map, List.map_cons, List.map_map]
        congr 1
        · show hexId q.pending.curID = hexId (q.pending.curID + (0 : Nat))
          norm_num
        · apply List.map_congr_left
          intro i _
          show hexId (q.pending.curID + 1 + (i : Int)) = hexId (q.pending.curID + ((i + 1 : Nat) : Int))
          congr 1
          push_cast
          ring
      · show (applyOps (q.Push c).2 rest).pending.curID = q.pending.curID + ((countPush rest : Int) + 1)
        rw [hih.2, hwrap]
        ring
    | pop now tmo =>
      have := ih (applyOp q (Op.pop now tmo))
        (by rw [curID_applyOp_nonpush q _ (by intro c h; cases h)]; exact h0)
        (by rw [curID_applyOp_nonpush q _ (by intro c h; cases h)]; exact hb)
      rw [curID_applyOp_nonpush q _ (by intro c h; cases h)] at this
      exact this
    | popBatch n now tmo =>
      have := ih (applyOp q (Op.popBatch n now tmo))
        (by rw [curID_applyOp_nonpush q _ (by intro c h; cases h)]; exact h0)
        (by rw [curID_applyOp_nonpush q _ (by intro c h; cases h)]; exact hb)
      rw [curID_applyOp_nonpush q _ (by intro c h; cases h)] at this
      exact this
    | completed id now =>
      have := ih (applyOp q (Op.completed id now))
        (by rw [curID_applyOp_nonpush q _ (by intro c h; cases h)]; exact h0)
        (by rw [curID_applyOp_nonpush q _ (by intro c h; cases h)]; exact hb)
      rw [curID_applyOp_nonpush q _ (by intro c h; cases h)] at this
      exact this
    | keepalive id now tmo =>
      have := ih (applyOp q (Op.keepalive id now tmo))
        (by rw [curID_applyOp_nonpush q _ (by intro c h; cases h)]; exact h0)
        (by rw [curID_applyOp_nonpush q _ (by intro c h; cases h)]; exact hb)
      rw [curID_applyOp_nonpush q _ (by intro c h; cases h)] at this
      exact this
    | clear =>
      have := ih (applyOp q Op.clear)
        (by rw [curID_applyOp_nonpush q _ (by intro c h; cases h)]; exact h0)
        (by rw [curID_applyOp_nonpush q _ (by intro c h; cases h)]; exact hb)
      rw [curID_applyOp_nonpush q _ (by intro c h; cases h)] at this
      exact this
    | expireAll =>
      have := ih (applyOp q Op.expireAll)
        (by rw [curID_applyOp_nonpush q _ (by intro c h; cases h)]; exact h0)
        (by rw [curID_applyOp_nonpush q _ (by intro c h; cases h)]; exact hb)
      rw [curID_applyOp_nonpush q _ (by intro c h; cases h)] at this
      exact this
    | queueExpired now =>
      have := ih (applyOp q (Op.queueExpired now))
        (by rw [curID_applyOp_nonpush q _ (by intro c h; cases h)]; exact h0)
        (by rw [curID_applyOp_nonpush q _ (by intro c h; cases h)]; exact hb)
      rw [curID_applyOp_nonpush q _ (by intro c h; cases h)] at this
      exact this

theorem mintedIds_nodup (timeout : Int) (ops : List Op)
    (hb : (countPush ops : Int) < 2 ^ 63) :
    (mintedIds (NewQueueState timeout) ops).Nodup := by
  have h := (mintedIds_eq ops (NewQueueState timeout) (le_refl 0)
    (by show (0 : Int) + (countPush ops : Int) < 2 ^ 63; omega)).1
  rw [h]
  apply List.Nodup.map ?_ (List.nodup_range _)
  intro a b hab
  simp only [NewQueueState, NewPendingQueue] at hab
  norm_num at hab
  exact hexId_natCast_inj hab

/-- Claim C6 — **Clear semantics and ID uniqueness**: `Clear` empties both
queues, zeroes the completion counter and resets the rate tracker, while
leaving the pending queue's `curID` untouched; consequently any two pushes
over a context's lifetime — Clears in between included — return distinct
IDs (as long as the `int64` counter does not wrap, i.e. fewer than `2^63`
pushes happen). -/
theorem clear_keeps_curID_ids_unique :
    (∀ q : QueueState,
      q.Clear.pending.deque = [] ∧ q.Clear.running.deque = [] ∧
      q.Clear.completionCounter = 0 ∧ q.Clear.rateTracker = q.rateTracker.Reset ∧
      q.Clear.pending.curID = q.pending.curID) ∧
    (∀ (timeout : Int) (ops : List Op), (countPush ops : Int) < 2 ^ 63 →
      (mintedIds (NewQueueState timeout) ops).Nodup) :=
  ⟨fun _ => ⟨rfl, rfl, rfl, rfl, rfl⟩, mintedIds_nodup⟩

/-- Witness for C6: a trace pushing "a", clearing, then pushing "b" mints
the distinct IDs "0" and "1". -/
theorem clear_keeps_curID_ids_unique_witness :
    (mintedIds (NewQueueState 10) [Op.push "a", Op.clear, Op.push "b"]).Nodup ∧
    mintedIds (NewQueueState 10) [Op.push "a", Op.clear, Op.push "b"] = ["0", "1"] :=
  ⟨clear_keeps_curID_ids_unique.2 10 [Op.push "a", Op.clear, Op.push "b"] (by decide),
   by decide⟩

/-! ### Completed tasks never come back (claim C9) -/

/-- All task IDs present anywhere in the engine (pending or running). -/
def allIDs (q : QueueState) : List String :=
  (q.pending.deque ++ q.running.deque).map Task.ID

theorem mem_allIDs {id : String} {q : QueueState} :
    id ∈ allIDs q ↔
      id ∈ q.pending.deque.map Task.ID ∨ id ∈ q.running.deque.map Task.ID := by
  simp [allIDs]

theorem mem_map_ID_pushByExpiration {id : String} {d : TaskDeque} {t : Task}
    (h : id ∈ (TaskDeque.PushByExpiration d t).map Task.ID) :
    id = t.ID ∨ id ∈ d.map Task.ID := by
  obtain ⟨x, hx, rfl⟩ := List.mem_map.mp h
  rcases mem_pushByExpiration.mp hx with rfl | hx'
  · exact Or.inl rfl
  · exact Or.inr (List.mem_map_of_mem Task.ID hx')

theorem startAll_deque_ids (tmo : Option Int) (now : Int) (ts : List Task) :
    ∀ (r : RunningQueue) (id : String),
      id ∈ ((QueueState.startAll tmo now ts r).2).deque.map Task.ID →
      id ∈ ts.map Task.ID ∨ id ∈ r.deque.map Task.ID := by
  induction ts with
  | nil => exact fun r id h => Or.inr h
  | cons t rest ih =>
    intro r id h
    have hrec := ih ((r.StartedTask t tmo now).2) id h
    rcases hrec with h' | h'
    · exact Or.inl (List.mem_cons_of_mem _ h')
    · rcases mem_map_ID_pushByExpiration h' with h'' | h''
      · left
        rw [h'']
        exact List.mem_map.mpr ⟨t, List.mem_cons_self t rest, rfl⟩
      · exact Or.inr h''

theorem allIDs_pop_subset (q : QueueState) (now : Int) (tmo : Option Int) :
    ∀ id ∈ allIDs ((q.Pop now tmo).2.2), id ∈ allIDs q := by
  intro id hid
  cases hd : q.pending.deque with
  | cons t rest =>
    rw [pop_of_pending_cons q now tmo t rest hd] at hid
    rw [mem_allIDs] at hid ⊢
    rcases hid with h | h
    · left
      rw [hd]
      exact List.mem_map.mpr (by
        obtain ⟨x, hx, rfl⟩ := List.mem_map.mp h
        exact ⟨x, List.mem_cons_of_mem t hx, rfl⟩)
    · rcases mem_map_ID_pushByExpiration h with h' | h'
      · left
        rw [hd, h']
        exact List.mem_map.mpr ⟨t, List.mem_cons_self t rest, rfl⟩
      · exact Or.inr h'
  | nil =>
    have hspec := pop_of_pending_nil q now tmo hd
    cases hr : q.running.deque with
    | nil =>
      rw [hspec.1 hr] at hid
      exact hid
    | cons h₁ r₁ =>
      by_cases hexp : h₁.expiration > now
      · rw [hspec.2.1 h₁ r₁ hr hexp] at hid
        exact hid
      · rw [hspec.2.2 h₁ r₁ hr hexp] at hid
        rw [mem_allIDs] at hid ⊢
        rcases hid with h | h
        · exact Or.inl h
        · rcases mem_map_ID_pushByExpiration h with h' | h'
          · right
            rw [hr, h']
            exact List.mem_map.mpr ⟨h₁, List.mem_cons_self h₁ r₁, rfl⟩
          · right
            rw [hr]
            exact List.mem_map.mpr (by
              obtain ⟨x, hx, rfl⟩ := List.mem_map.mp h'
              exact ⟨x, List.mem_cons_of_mem h₁ hx, rfl⟩)

theorem allIDs_applyOp_nonpush (q : QueueState) (op : Op)
    (hnp : ∀ c, op ≠ Op.push c) :
    ∀ id ∈ allIDs (applyOp q op), id ∈ allIDs q := by
  cases op with
  | push c => exact absurd rfl (hnp c)
  | pop now tmo => exact allIDs_pop_subset q now tmo
  | popBatch n now tmo =>
    intro id hid
    show id ∈ allIDs q
    have hform : (q.PopBatch n now tmo).2.2.pending.deque = q.pending.deque.drop n ∧
        (q.PopBatch n now tmo).2.2.running =
          (QueueState.startAll tmo now
            (q.pending.deque.take n
              ++ (QueueState.popBatchExpired now (n - (q.pending.deque.take n).length) q.running).1)
            (QueueState.popBatchExpired now (n - (q.pending.deque.take n).length) q.running).2.2).2 := by
      constructor <;> simp only [QueueState.PopBatch, popBatchPending_eq]
    rw [show applyOp q (Op.popBatch n now tmo) = (q.PopBatch n now tmo).2.2 from rfl,
      mem_allIDs] at hid
    rw [mem_allIDs]
    rcases hid with h | h
    · left
      rw [hform.1] at h
      obtain ⟨x, hx, rfl⟩ := List.mem_map.mp h
      exact List.mem_map_of_mem Task.ID ((List.drop_subset n _) hx)
    · rw [hform.2] at h
      rcases startAll_deque_ids tmo now _ _ id h with h' | h'
      · rw [List.map_append, List.mem_append] at h'
        rcases h' with h'' | h''
        · left
          obtain ⟨x, hx, rfl⟩ := List.mem_map.mp h''
          exact List.mem_map_of_mem Task.ID ((List.take_subset n _) hx)
        · right
          obtain ⟨x, hx, rfl⟩ := List.mem_map.mp h''
          have happ := (popBatchExpired_append now
            (n - (q.pending.deque.take n).length) q.running).1
          refine List.mem_map_of_mem Task.ID ?_
          rw [← happ]
          exact List.mem_append_left _ hx
      · right
        obtain ⟨x, hx, rfl⟩ := List.mem_map.mp h'
        have happ := (popBatchExpired_append now
          (n - (q.pending.deque.take n).length) q.running).1
        refine List.mem_map_of_mem Task.ID ?_
        rw [← happ]
        exact List.mem_append_right _ hx
  | completed id₀ now =>
    intro id hid
    show id ∈ allIDs q
    cases hf : q.running.findID id₀ with
    | none =>
      rw [show applyOp q (Op.completed id₀ now) = (q.Completed id₀ now).2 from rfl] at hid
      simp only [QueueState.Completed, RunningQueue.Completed, hf] at hid
      exact hid
    | some task =>
      rw [show applyOp q (Op.completed id₀ now) = (q.Completed id₀ now).2 from rfl] at hid
      simp only [QueueState.Completed, RunningQueue.Completed, hf] at hid
      rw [mem_allIDs] at hid ⊢
      rcases hid with h | h
      · exact Or.inl h
      · right
        obtain ⟨x, hx, rfl⟩ := List.mem_map.mp h
        exact List.mem_map_of_mem Task.ID (mem_removeID hx)
  | keepalive id₀ now tmo =>
    intro id hid
    show id ∈ allIDs q
    cases hf : q.running.findID id₀ with
    | none =>
      rw [show applyOp q (Op.keepalive id₀ now tmo) = (q.Keepalive id₀ tmo now).2 from rfl] at hid
      simp only [QueueState.Keepalive, RunningQueue.Keepalive, hf] at hid
      exact hid
    | some task =>
      rw [show applyOp q (Op.keepalive id₀ now tmo) = (q.Keepalive id₀ tmo now).2 from rfl] at hid
      simp only [QueueState.Keepalive, RunningQueue.Keepalive, hf,
        RunningQueue.StartedTask] at hid
      rw [mem_allIDs] at hid ⊢
      rcases hid with h | h
      · exact Or.inl h
      · rcases mem_map_ID_pushByExpiration h with h' | h'
        · right
          rw [h']
          have htask : task ∈ q.running.deque := List.mem_of_find?_eq_some hf
          exact List.mem_map.mpr ⟨task, htask, rfl⟩
        · right
          obtain ⟨x, hx, rfl⟩ := List.mem_map.mp h'
          exact List.mem_map_of_mem Task.ID (mem_removeID hx)
  | clear =>
    intro id hid
    rw [show applyOp q Op.clear = q.Clear from rfl] at hid
    simp [allIDs, QueueState.Clear, PendingQueue.Clear, RunningQueue.Clear] at hid
  | expireAll =>
    intro id hid
    show id ∈ allIDs q
    rw [show applyOp q Op.expireAll = q.ExpireAll.2 from rfl] at hid
    simp only [QueueState.ExpireAll, RunningQueue.ExpireAll] at hid
    rw [mem_allIDs] at hid ⊢
    rcases hid with h | h
    · exact Or.inl h
    · right
      rw [List.map_map] at h
      exact h
  | queueExpired now =>
    intro id hid
    show id ∈ allIDs q
    rw [show applyOp q (Op.queueExpired now) = (q.QueueExpired now).2 from rfl] at hid
    simp only [QueueState.QueueExpired] at hid
    rw [mem_allIDs] at hid ⊢
    have happ := queueExpiredAux_append now q.running.deque
    rcases hid with h | h
    · rw [List.map_append, List.mem_append] at h
      rcases h with h' | h'
      · exact Or.inl h'
      · right
        obtain ⟨x, hx, rfl⟩ := List.mem_map.mp h'
        refine List.mem_map_of_mem Task.ID ?_
        rw [← happ]
        exact List.mem_append_left _ hx
    · right
      obtain ⟨x, hx, rfl⟩ := List.mem_map.mp h
      refine List.mem_map_of_mem Task.ID ?_
      rw [← happ]
      exact List.mem_append_right _ hx

theorem allIDs_push (q : QueueState) (c : String) :
    ∀ id, id ∈ allIDs ((q.Push c).2) ↔ id ∈ allIDs q ∨ id = hexId q.pending.curID := by
  intro id
  have hdeq : (q.Push c).2.pending.deque
      = q.pending.deque ++ [{ ID := hexId q.pending.curID, Contents := c, expiration := 0 }] :=
    rfl
  have hrun : (q.Push c).2.running = q.running := rfl
  rw [mem_allIDs, mem_allIDs, hdeq, hrun, List.map_append, List.mem_append]
  have hID : ({ ID := hexId q.pending.curID, Contents := c, expiration := 0 } : Task).ID
      = hexId q.pending.curID := rfl
  simp only [List.map_cons, List.map_nil, List.mem_singleton, hID]
  tauto

theorem countPush_cons_nonpush (op : Op) (rest : List Op)
    (h : ∀ c, op ≠ Op.push c) : countPush (op :: rest) = countPush rest := by
  cases op with
  | push c => exact absurd rfl (h c)
  | pop now tmo => rfl
  | popBatch n now tmo => rfl
  | completed id now => rfl
  | keepalive id now tmo => rfl
  | clear => rfl
  | expireAll => rfl
  | queueExpired now => rfl

theorem mintedIds_cons_nonpush (q : QueueState) (op : Op) (rest : List Op)
    (h : ∀ c, op ≠ Op.push c) :
    mintedIds q (op :: rest) = mintedIds (applyOp q op) rest := by
  cases op with
  | push c => exact absurd rfl (h c)
  | pop now tmo => rfl
  | popBatch n now tmo => rfl
  | completed id now => rfl
  | keepalive id now tmo => rfl
  | clear => rfl
  | expireAll => rfl
  | queueExpired now => rfl

theorem hexId_notin_applyOps (ops : List Op) : ∀ (q : QueueState) (k : Nat),
    0 ≤ q.pending.curID → (k : Int) < q.pending.curID →
    hexId (k : Int) ∉ allIDs q →
    q.pending.curID + countPush ops < 2 ^ 63 →
    hexId (k : Int) ∉ allIDs (applyOps q ops) := by
  induction ops with
  | nil => exact fun q k _ _ hnot _ => hnot
  | cons op rest ih =>
    intro q k h0 hk hnot hb
    by_cases hpush : ∃ c, op = Op.push c
    · obtain ⟨c, rfl⟩ := hpush
      have hcp : countPush (Op.push c :: rest) = countPush rest + 1 := rfl
      rw [hcp] at hb
      have hwrap : (q.Push c).2.pending.curID = q.pending.curID + 1 := by
        rw [curID_push]
        exact int64wrap_eq_self (by omega) (by push_cast at hb; omega)
      show hexId (k : Int) ∉ allIDs (applyOps (q.Push c).2 rest)
      apply ih (q.Push c).2 k (by omega) (by omega)
      · intro hmem
        rcases (allIDs_push q c (hexId (k : Int))).mp hmem with h | h
        · exact hnot h
        · have hcur : hexId q.pending.curID = hexId ((q.pending.curID.toNat : Nat) : Int) := by
            rw [Int.toNat_of_nonneg h0]
          rw [hcur] at h
          have := hexId_natCast_inj h
          omega
      · rw [hwrap]
        push_cast at hb ⊢
        omega
    · have hnp : ∀ c, op ≠ Op.push c := fun c hc => hpush ⟨c, hc⟩
      have hsub := allIDs_applyOp_nonpush q op hnp
      have hcur := curID_applyOp_nonpush q op hnp
      show hexId (k : Int) ∉ allIDs (applyOps (applyOp q op) rest)
      apply ih (applyOp q op) k (by rw [hcur]; exact h0) (by rw [hcur]; exact hk)
      · intro hmem
        exact hnot (hsub _ hmem)
      · rw [hcur, ← countPush_cons_nonpush op rest hnp]
        exact hb

theorem pop_some_id_mem (q : QueueState) (now : Int) (tmo : Option Int) (t : Task)
    (h : (q.Pop now tmo).1 = some t) : t.ID ∈ allIDs q := by
  cases hd : q.pending.deque with
  | cons t₀ rest =>
    rw [pop_of_pending_cons q now tmo t₀ rest hd] at h
    simp only [Option.some.injEq] at h
    subst h
    rw [mem_allIDs]
    left
    rw [hd]
    exact List.mem_map.mpr ⟨t₀, List.mem_cons_self t₀ rest, rfl⟩
  | nil =>
    have hspec := pop_of_pending_nil q now tmo hd
    cases hr : q.running.deque with
    | nil =>
      rw [hspec.1 hr] at h
      simp at h
    | cons h₁ r₁ =>
      by_cases hexp : h₁.expiration > now
      · rw [hspec.2.1 h₁ r₁ hr hexp] at h
        simp at h
      · rw [hspec.2.2 h₁ r₁ hr hexp] at h
        simp only [Option.some.injEq] at h
        subst h
        rw [mem_allIDs]
        right
        rw [hr]
        exact List.mem_map.mpr ⟨h₁, List.mem_cons_self h₁ r₁, rfl⟩

/-- Every ID present in the engine was minted by an earlier push: it is
the hex form of a counter value below `curID`. -/
def IDsBounded (q : QueueState) : Prop :=
  ∀ id ∈ allIDs q, ∃ k : Nat, (k : Int) < q.pending.curID ∧ id = hexId (k : Int)

/-- Claim C9 — **Completing an expired task**: a task that has already
expired but still sits in the running queue can still be completed:
`Completed` returns true, removes the task's ID from the whole engine and
increments the completion counter; and no later `Pop`, after any further
sequence of operations (short of wrapping the 2^63 ID counter), ever
returns a task with that ID again. -/
theorem completed_expired_spec (q : QueueState) (t : Task) (now : Int)
    (hmem : t ∈ q.running.deque)
    (_hexp : t.expiration ≤ now)
    (hnodup : (allIDs q).Nodup)
    (hbd : IDsBounded q)
    (h0 : 0 ≤ q.pending.curID) :
    (q.Completed t.ID now).1 = true ∧
    (q.Completed t.ID now).2.completionCounter = q.completionCounter + 1 ∧
    t.ID ∉ allIDs (q.Completed t.ID now).2 ∧
    (∀ (ops : List Op) (now₂ : Int) (tmo₂ : Option Int) (t₂ : Task),
      q.pending.curID + countPush ops < 2 ^ 63 →
      ((applyOps (q.Completed t.ID now).2 ops).Pop now₂ tmo₂).1 = some t₂ →
      t₂.ID ≠ t.ID) := by
  have hspec := queueState_completed_spec q t.ID now
  have htrue : (q.Completed t.ID now).1 = true :=
    hspec.1.mpr ⟨t, hmem, rfl⟩
  obtain ⟨hcnt, hrun, htimeout, hpend, hrate⟩ := hspec.2.2.1 htrue
  have hrun_nodup : (q.running.deque.map Task.ID).Nodup := by
    have : (allIDs q).Nodup := hnodup
    rw [allIDs, List.map_append] at this
    exact this.of_append_right
  have hnotin : t.ID ∉ allIDs (q.Completed t.ID now).2 := by
    rw [mem_allIDs, hpend, hrun]
    rintro (h | h)
    · -- t.ID would also be in pending, contradicting Nodup of allIDs
      have hdisj : List.Disjoint (q.pending.deque.map Task.ID)
          (q.running.deque.map Task.ID) := by
        have := hnodup
        rw [allIDs, List.map_append] at this
        exact List.disjoint_of_nodup_append this
      exact hdisj h (List.mem_map.mpr ⟨t, hmem, rfl⟩)
    · obtain ⟨x, hx, hxid⟩ := List.mem_map.mp h
      exact removeID_id_not_mem hrun_nodup x hx hxid
  refine ⟨htrue, hcnt, hnotin, ?_⟩
  intro ops now₂ tmo₂ t₂ hb hpop
  obtain ⟨k, hk, hkid⟩ := hbd t.ID (by
    rw [mem_allIDs]
    exact Or.inr (List.mem_map.mpr ⟨t, hmem, rfl⟩))
  have hcur' : (q.Completed t.ID now).2.pending.curID = q.pending.curID := by
    rw [hpend]
  have hnotin' : hexId (k : Int) ∉ allIDs (applyOps (q.Completed t.ID now).2 ops) := by
    apply hexId_notin_applyOps ops _ k
    · rw [hcur']; exact h0
    · rw [hcur']; exact hk
    · rw [← hkid]; exact hnotin
    · rw [hcur']; exact hb
  intro habs
  have hS : t₂.ID = hexId (k : Int) := by rw [habs, hkid]
  have hmem2 := pop_some_id_mem _ now₂ tmo₂ t₂ hpop
  rw [hS] at hmem2
  exact hnotin' hmem2

/-- Witness for C9: a reachable state with one expired running task
(ID "0"); completing it succeeds, removes "0" from the engine, and no
later pop can return a task with ID "0". -/
theorem completed_expired_spec_witness :
    (((((NewQueueState 10).Push "a").2.Pop 0 none).2.2.ExpireAll.2.Completed "0" 5).1 = true) ∧
    ((((NewQueueState 10).Push "a").2.Pop 0 none).2.2.ExpireAll.2.Completed "0" 5).2.completionCounter
      = (((NewQueueState 10).Push "a").2.Pop 0 none).2.2.ExpireAll.2.completionCounter + 1 ∧
    "0" ∉ allIDs ((((NewQueueState 10).Push "a").2.Pop 0 none).2.2.ExpireAll.2.Completed "0" 5).2 ∧
    (∀ (ops : List Op) (now₂ : Int) (tmo₂ : Option Int) (t₂ : Task),
      (((NewQueueState 10).Push "a").2.Pop 0 none).2.2.ExpireAll.2.pending.curID + countPush ops < 2 ^ 63 →
      ((applyOps ((((NewQueueState 10).Push "a").2.Pop 0 none).2.2.ExpireAll.2.Completed "0" 5).2 ops).Pop now₂ tmo₂).1 = some t₂ →
      t₂.ID ≠ "0") :=
  completed_expired_spec (((NewQueueState 10).Push "a").2.Pop 0 none).2.2.ExpireAll.2
    { ID := "0", Contents := "a", expiration := 0 } 5
    (by decide) (by decide) (by decide)
    (fun id hid => by
      have hall : allIDs (((NewQueueState 10).Push "a").2.Pop 0 none).2.2.ExpireAll.2
          = ["0"] := by decide
      rw [hall, List.mem_singleton] at hid
      subst hid
      exact ⟨0, by decide, by decide⟩)
    (by decide)

end Tasq

/-! ## The attempt-counting engine (claims C2 and C7)

The current engine additionally tracks, per task, how many times it has
been delivered (`numAttempts`), and lets a push carry a capacity `limit`.
That engine code is exercised by the repository's tests
(`TestQueueStatePopAttempts`, …) and HTTP handlers, but the engine file
implementing it is not among the available sources, so the definitions
below are modelled from the specification (§3, §4.2, §4.3, §9) on top of
the source-faithful structure of the `Tasq` model.  Each spec-modelled
decision is noted in the doc comment of the definition making it.
-/

namespace AttemptModel

/-- Modelled from the spec (§3): the task record of the current engine
additionally carries `numAttempts`, the count of delivery episodes (0
until the first delivery). -/
structure Task where
  ID : String
  Contents : String
  expiration : Int
  numAttempts : Int
  deriving DecidableEq, Repr

/-- Head-first task deque, as in the `Tasq` model. -/
abbrev TaskDeque := List Task

/-- `PushLast`. -/
def PushLast (d : TaskDeque) (t : Task) : TaskDeque := d ++ [t]

/-- The tail-backwards scan of `PushByExpiration`, on the reversed
deque. -/
def insertFromBack (t : Task) : List Task → List Task
  | [] => [t]
  | p :: rest =>
    if p.expiration > t.expiration then p :: insertFromBack t rest
    else t :: p :: rest

/-- `PushByExpiration`. -/
def PushByExpiration (d : TaskDeque) (t : Task) : TaskDeque :=
  (insertFromBack t d.reverse).reverse

/-- `Remove` of the task with the given ID. -/
def removeID : TaskDeque → String → TaskDeque
  | [], _ => []
  | t :: rest, id => if t.ID = id then rest else t :: removeID rest id

/-- The pending queue (deque + monotone `curID`). -/
structure PendingQueue where
  deque : TaskDeque
  curID : Int
  deriving DecidableEq, Repr

/-- Modelled from the spec (§4.2): `addTask(contents, limit)` refuses
(minting no ID and changing nothing) when `limit > 0` and the queue
already holds at least `limit` tasks; otherwise it mints `hex(curID)`,
advances `curID` (with `int64` wraparound) and enqueues a fresh task
(whose Go zero-valued `numAttempts` is 0) at the tail. -/
def PendingQueue.AddTask (p : PendingQueue) (contents : String) (limit : Int) :
    Option Task × PendingQueue :=
  if limit > 0 ∧ (p.deque.length : Int) ≥ limit then (none, p)
  else
    let task : Task := { Contents := contents, ID := Tasq.hexId p.curID,
                         expiration := 0, numAttempts := 0 }
    (some task, { deque := PushLast p.deque task, curID := Tasq.int64wrap (p.curID + 1) })

/-- `PushTask`: re-enqueue an existing task (attempts untouched). -/
def PendingQueue.PushTask (p : PendingQueue) (t : Task) : PendingQueue :=
  { p with deque := PushLast p.deque t }

/-- `PopTask`. -/
def PendingQueue.PopTask (p : PendingQueue) : Option Task × PendingQueue :=
  match p.deque with
  | [] => (none, p)
  | t :: rest => (some t, { p with deque := rest })

/-- The running queue. -/
structure RunningQueue where
  deque : TaskDeque
  timeout : Int
  deriving DecidableEq, Repr

/-- The `idToTask` lookup. -/
def RunningQueue.findID (r : RunningQueue) (id : String) : Option Task :=
  r.deque.find? (fun t => t.ID == id)

/-- Modelled from the spec (§4.3, §9): `startedTask(t, timeoutOverride)`
sets `t.expiration = now + (timeoutOverride ?? defaultTimeout)` and
increments `t.numAttempts` exactly when this is a new delivery
(`newDelivery = true` from the pop paths); the keepalive path passes
`newDelivery = false`, as §9 mandates. -/
def RunningQueue.StartedTask (r : RunningQueue) (t : Task) (timeout : Option Int)
    (now : Int) (newDelivery : Bool) : Task × RunningQueue :=
  let timeout := timeout.getD r.timeout
  let t := { t with expiration := now + timeout,
                    numAttempts := if newDelivery then t.numAttempts + 1 else t.numAttempts }
  (t, { r with deque := PushByExpiration r.deque t })

/-- `PopExpired`. -/
def RunningQueue.PopExpired (r : RunningQueue) (now : Int) :
    Option Task × Option Int × RunningQueue :=
  match r.deque with
  | [] => (none, none, r)
  | task :: rest =>
    if task.expiration > now then (none, some task.expiration, r)
    else (some task, none, { r with deque := rest })

/-- `Completed`. -/
def RunningQueue.Completed (r : RunningQueue) (id : String) :
    Option Task × RunningQueue :=
  match r.findID id with
  | none => (none, r)
  | some task => (some task, { r with deque := removeID r.deque id })

/-- `Keepalive`: remove and re-insert through `StartedTask` with
`newDelivery = false`, so attempts are unchanged. -/
def RunningQueue.Keepalive (r : RunningQueue) (id : String) (timeout : Option Int)
    (now : Int) : Bool × RunningQueue :=
  match r.findID id with
  | none => (false, r)
  | some task =>
    let r := { r with deque := removeID r.deque id }
    let (_, r) := r.StartedTask task timeout now false
    (true, r)

/-- The per-context state of the attempt-counting engine. -/
structure QueueState where
  pending : PendingQueue
  running : RunningQueue
  completionCounter : Int
  rateTracker : RateTracker
  deriving DecidableEq, Repr

/-- Fresh state. -/
def NewQueueState (timeout : Int) : QueueState :=
  { pending := { deque := [], curID := 0 },
    running := { deque := [], timeout := timeout },
    completionCounter := 0, rateTracker := RateTracker.NewRateTracker 0 }

namespace QueueState

/-- Modelled from the spec (§4.4): `push(contents, limit)` delegates to
the pending queue, returning the minted ID or a refusal. -/
def Push (q : QueueState) (contents : String) (limit : Int) :
    Option String × QueueState :=
  match q.pending.AddTask contents limit with
  | (some task, pending) => (some task.ID, { q with pending := pending })
  | (none, _) => (none, q)

/-- `Pop`: pending first, expired running only when pending is empty;
both delivery paths go through `StartedTask` with `newDelivery = true`. -/
def Pop (q : QueueState) (now : Int) (timeout : Option Int) :
    Option Task × Option Int × QueueState :=
  match q.pending.PopTask with
  | (some nextPending, pending) =>
    let (t, running) := q.running.StartedTask nextPending timeout now true
    (some t, none, { q with pending := pending, running := running })
  | (none, _) =>
    match q.running.PopExpired now with
    | (some nextExpired, _, running) =>
      let (t, running) := running.StartedTask nextExpired timeout now true
      (some t, none, { q with running := running })
    | (none, nextTry, _) => (none, nextTry, q)

/-- First `PopBatch` loop: up to `n` tasks from pending. -/
def popBatchPending : Nat → PendingQueue → List Task × PendingQueue
  | 0, p => ([], p)
  | Nat.succ k, p =>
    match p.PopTask with
    | (none, p) => ([], p)
    | (some t, p) =>
      let (ts, p') := popBatchPending k p
      (t :: ts, p')

/-- Second `PopBatch` loop: expired tasks while short of the count. -/
def popBatchExpired (now : Int) : Nat → RunningQueue → List Task × Option Int × RunningQueue
  | 0, r => ([], none, r)
  | Nat.succ k, r =>
    match r.PopExpired now with
    | (none, nextTry, r) => ([], nextTry, r)
    | (some t, _, r) =>
      let (ts, nextTry, r') := popBatchExpired now k r
      (t :: ts, nextTry, r')

/-- Final `PopBatch` loop: start every drained task (a new delivery). -/
def startAll (timeout : Option Int) (now : Int) :
    List Task → RunningQueue → List Task × RunningQueue
  | [], r => ([], r)
  | t :: rest, r =>
    let (t', r') := r.StartedTask t timeout now true
    let (ts', r'') := startAll timeout now rest r'
    (t' :: ts', r'')

/-- `PopBatch`. -/
def PopBatch (q : QueueState) (n : Nat) (now : Int) (timeout : Option Int) :
    List Task × Option Int × QueueState :=
  let (tasks₁, pending) := popBatchPending n q.pending
  let (tasks₂, nextTry, running) := popBatchExpired now (n - tasks₁.length) q.running
  let (tasks, running') := startAll timeout now (tasks₁ ++ tasks₂) running
  (tasks, nextTry, { q with pending := pending, running := running' })

/-- `Completed`. -/
def Completed (q : QueueState) (id : String) (now : Int) : Bool × QueueState :=
  match q.running.Completed id with
  | (some _, running) =>
    (true, { q with running := running,
                    completionCounter := q.completionCounter + 1,
                    rateTracker := q.rateTracker.Add now 1 })
  | (none, _) => (false, q)

/-- `Keepalive`. -/
def Keepalive (q : QueueState) (id : String) (timeout : Option Int) (now : Int) :
    Bool × QueueState :=
  let (ok, running) := q.running.Keepalive id timeout now
  (ok, { q with running := running })

/-- `Clear`. -/
def Clear (q : QueueState) : QueueState :=
  { q with pending := { q.pending with deque := [] },
           running := { q.running with deque := [] },
           completionCounter := 0, rateTracker := q.rateTracker.Reset }

/-- `ExpireAll`. -/
def ExpireAll (q : QueueState) : Nat × QueueState :=
  (q.running.deque.length,
   { q with running :=
      { q.running with deque := q.running.deque.map (fun t => { t with expiration := 0 }) } })

/-- The loop of `QueueExpired` on the running deque. -/
def queueExpiredAux (now : Int) : TaskDeque → TaskDeque × TaskDeque
  | [] => ([], [])
  | t :: rest =>
    if t.expiration > now then ([], t :: rest)
    else
      let (moved, remaining) := queueExpiredAux now rest
      (t :: moved, remaining)

/-- `QueueExpired`: move expired running tasks back to pending, attempts
untouched (§4.4). -/
def QueueExpired (q : QueueState) (now : Int) : Nat × QueueState :=
  let (moved, remaining) := queueExpiredAux now q.running.deque
  (moved.length,
   { q with pending := { q.pending with deque := q.pending.deque ++ moved },
            running := { q.running with deque := remaining } })

end QueueState

section AttemptExamples

-- `TestQueueStatePopAttempts` (task tests): pop → 1 attempt; keepalive
-- leaves it at 1; after expiry a re-pop shows 2 attempts.
example :
    let q := ((NewQueueState 60).Push "task-contents" 0).2
    let p1 := q.Pop 0 none
    (p1.1.map Task.numAttempts = some 1) ∧
    ((p1.2.2.Keepalive "0" none 1).2.running.deque.map Task.numAttempts = [1]) ∧
    (((((p1.2.2.Keepalive "0" none 1).2.ExpireAll).2.Pop 2 none).1.map Task.numAttempts)
      = some 2) := by
  decide

-- `TestQueueStateQueueExpiredDoesNotIncrementAttempts`: queue_expired
-- moves the task back with attempts still 1; the next pop makes it 2.
example :
    let q := ((NewQueueState 60).Push "task-contents" 0).2
    let q1 := (q.Pop 0 none).2.2
    let q2 := (q1.ExpireAll).2
    ((q2.QueueExpired 1).1 = 1) ∧
    ((q2.QueueExpired 1).2.pending.deque.map Task.numAttempts = [1]) ∧
    (((q2.QueueExpired 1).2.Pop 2 none).1.map Task.numAttempts = some 2) := by
  decide

end AttemptExamples

/-! ### Push with a limit (claim C7) -/

/-- Claim C7 — **Capacity-refused push**: when `limit > 0` and the pending
queue already holds at least `limit` tasks, `Push` is refused: no ID is
minted (`curID` unchanged) and the state is returned unchanged.
Otherwise the new task gets `hex(curID)` as its ID, `curID` is advanced,
the task goes to the pending tail, and the ID is returned.  (`AddTask`
with a limit is modelled from the spec, §4.2.) -/
theorem push_limit_spec (q : QueueState) (contents : String) (limit : Int) :
    (limit > 0 ∧ (q.pending.deque.length : Int) ≥ limit →
      q.Push contents limit = (none, q)) ∧
    (¬(limit > 0 ∧ (q.pending.deque.length : Int) ≥ limit) →
      q.Push contents limit =
        (some (Tasq.hexId q.pending.curID),
         { q with pending :=
            { deque := q.pending.deque ++
                [{ ID := Tasq.hexId q.pending.curID, Contents := contents,
                   expiration := 0, numAttempts := 0 }],
              curID := Tasq.int64wrap (q.pending.curID + 1) } })) := by
  constructor
  · intro h
    simp only [QueueState.Push, PendingQueue.AddTask, if_pos h]
  · intro h
    simp only [QueueState.Push, PendingQueue.AddTask, if_neg h, PushLast]

/-- Witness for C7: with `limit = 1` and one pending task the push is
refused; with `limit = 2` it succeeds and mints "1". -/
theorem push_limit_spec_witness :
    (((NewQueueState 60).Push "a" 0).2.Push "b" 1
      = (none, ((NewQueueState 60).Push "a" 0).2)) ∧
    (((NewQueueState 60).Push "a" 0).2.Push "b" 2).1 = some "1" := by
  refine ⟨(push_limit_spec ((NewQueueState 60).Push "a" 0).2 "b" 1).1 (by decide), ?_⟩
  have := (push_limit_spec ((NewQueueState 60).Push "a" 0).2 "b" 2).2 (by decide)
  rw [this]
  decide

/-! ### Attempt counting along traces (claim C2) -/

/-- Trace operations of the attempt-counting engine. -/
inductive Op where
  | push (contents : String) (limit : Int)
  | pop (now : Int) (tmo : Option Int)
  | popBatch (n : Nat) (now : Int) (tmo : Option Int)
  | completed (id : String) (now : Int)
  | keepalive (id : String) (tmo : Option Int) (now : Int)
  | clear
  | expireAll
  | queueExpired (now : Int)

/-- The task as handed to a worker: what `startedTask` makes of it on the
two delivery paths (`newDelivery = true`). -/
def deliver (tmoDefault : Int) (tmo : Option Int) (now : Int) (t : Task) : Task :=
  { t with expiration := now + tmo.getD tmoDefault, numAttempts := t.numAttempts + 1 }

/-- The keepalive refresh of a task: expiration only, attempts untouched
(`newDelivery = false`). -/
def refresh (tmoDefault : Int) (tmo : Option Int) (now : Int) (t : Task) : Task :=
  { t with expiration := now + tmo.getD tmoDefault }

theorem startedTask_true (r : RunningQueue) (t : Task) (tmo : Option Int) (now : Int) :
    r.StartedTask t tmo now true =
      (deliver r.timeout tmo now t,
       { r with deque := PushByExpiration r.deque (deliver r.timeout tmo now t) }) := rfl

theorem startedTask_false (r : RunningQueue) (t : Task) (tmo : Option Int) (now : Int) :
    r.StartedTask t tmo now false =
      (refresh r.timeout tmo now t,
       { r with deque := PushByExpiration r.deque (refresh r.timeout tmo now t) }) := rfl

/-- One instrumented step: the next state together with the tasks this
operation delivered to a worker. -/
def applyOp (q : QueueState) : Op → QueueState × List Task
  | Op.push c l => ((q.Push c l).2, [])
  | Op.pop now tmo => ((q.Pop now tmo).2.2, (q.Pop now tmo).1.toList)
  | Op.popBatch n now tmo => ((q.PopBatch n now tmo).2.2, (q.PopBatch n now tmo).1)
  | Op.completed id now => ((q.Completed id now).2, [])
  | Op.keepalive id tmo now => ((q.Keepalive id tmo now).2, [])
  | Op.clear => (q.Clear, [])
  | Op.expireAll => (q.ExpireAll.2, [])
  | Op.queueExpired now => ((q.QueueExpired now).2, [])

/-- Run a trace from a state, concatenating the delivered tasks. -/
def exec (q : QueueState) : List Op → QueueState × List Task
  | [] => (q, [])
  | op :: ops =>
    ((exec (applyOp q op).1 ops).1,
     (applyOp q op).2 ++ (exec (applyOp q op).1 ops).2)

/-- The number of pushes in a trace. -/
def countPush : List Op → Nat
  | [] => 0
  | Op.push _ _ :: rest => countPush rest + 1
  | _ :: rest => countPush rest

/-- All tasks the engine currently holds (pending then running). -/
def tasksOf (q : QueueState) : List Task := q.pending.deque ++ q.running.deque

/-- How many delivered tasks in the log carry the given ID: the number of
delivery episodes of that ID so far. -/
def countDel : List Task → String → Nat
  | [], _ => 0
  | t :: rest, id => (if t.ID = id then 1 else 0) + countDel rest id

theorem countDel_append (a b : List Task) (id : String) :
    countDel (a ++ b) id = countDel a id + countDel b id := by
  induction a with
  | nil => simp [countDel]
  | cons t rest ih =>
    rw [List.cons_append]
    simp only [countDel, ih, Nat.add_assoc]

theorem countDel_eq_zero {dels : List Task} {id : String}
    (h : ∀ t ∈ dels, t.ID ≠ id) : countDel dels id = 0 := by
  induction dels with
  | nil => rfl
  | cons t rest ih =>
    simp only [countDel]
    rw [if_neg (h t (List.mem_cons_self t rest)), Nat.zero_add]
    exact ih (fun x hx => h x (List.mem_cons_of_mem t hx))

theorem insertFromBack_perm (t : Task) (l : List Task) :
    List.Perm (insertFromBack t l) (t :: l) := by
  induction l with
  | nil => exact List.Perm.refl [t]
  | cons p rest ih =>
    unfold insertFromBack
    split
    · exact (ih.cons p).trans (List.Perm.swap t p rest)
    · exact List.Perm.refl _

theorem pushByExpiration_perm (d : TaskDeque) (t : Task) :
    List.Perm (PushByExpiration d t) (t :: d) := by
  unfold PushByExpiration
  exact (List.reverse_perm _).trans ((insertFromBack_perm t d.reverse).trans
    ((List.reverse_perm d).cons t))

theorem removeID_isSublist (d : TaskDeque) (id : String) :
    List.Sublist (removeID d id) d := by
  induction d with
  | nil => exact List.Sublist.refl []
  | cons t rest ih =>
    unfold removeID
    split
    · exact List.sublist_cons_self t rest
    · exact ih.cons₂ t

theorem find_removeID_perm (d : TaskDeque) (id : String) (task : Task)
    (h : d.find? (fun t => t.ID == id) = some task) :
    List.Perm d (task :: removeID d id) := by
  induction d with
  | nil => simp at h
  | cons t rest ih =>
    by_cases ht : t.ID = id
    · have heq : t = task := by
        rw [List.find?_cons_of_pos] at h
        · exact Option.some.inj h
        · simpa using ht
      subst heq
      unfold removeID
      rw [if_pos ht]
    · have hfind : rest.find? (fun x => x.ID == id) = some task := by
        rw [List.find?_cons_of_neg] at h
        · exact h
        · simpa using ht
      unfold removeID
      rw [if_neg ht]
      exact ((ih hfind).cons t).trans (List.Perm.swap task t _)

/-- The attempt-count invariant over the engine's live tasks `ts`, the
delivered-task log `dels` and the next fresh ID `cur`: every live task's
`numAttempts` equals its number of delivery episodes so far, live IDs are
pairwise distinct, every ID ever seen is `hex(k)` for some `k < cur`, and
`cur` is non-negative. -/
def InvOn (ts dels : List Task) (cur : Int) : Prop :=
  (∀ t ∈ ts, t.numAttempts = (countDel dels t.ID : Int)) ∧
  (ts.map Task.ID).Nodup ∧
  (∀ t, t ∈ ts ∨ t ∈ dels → ∃ k : Nat, (k : Int) < cur ∧ t.ID = Tasq.hexId (k : Int)) ∧
  0 ≤ cur

/-- The invariant at a queue state. -/
def AttInv (q : QueueState) (dels : List Task) : Prop :=
  InvOn (tasksOf q) dels q.pending.curID

theorem invOn_perm {ts ts' dels : List Task} {cur : Int}
    (hp : List.Perm ts ts') (h : InvOn ts dels cur) : InvOn ts' dels cur := by
  obtain ⟨hA, hB, hC, hD⟩ := h
  refine ⟨?_, (hp.map Task.ID).nodup hB, ?_, hD⟩
  · intro t ht
    exact hA t (hp.symm.subset ht)
  · intro t ht
    refine hC t ?_
    rcases ht with ht | ht
    · exact Or.inl (hp.symm.subset ht)
    · exact Or.inr ht

theorem invOn_sublist {ts ts' dels : List Task} {cur : Int}
    (hs : List.Sublist ts' ts) (h : InvOn ts dels cur) : InvOn ts' dels cur := by
  obtain ⟨hA, hB, hC, hD⟩ := h
  refine ⟨fun t ht => hA t (hs.mem ht),
    List.Pairwise.sublist (List.Sublist.map Task.ID hs) hB, ?_, hD⟩
  intro t ht
  rcases ht with ht | ht
  · exact hC t (Or.inl (hs.mem ht))
  · exact hC t (Or.inr ht)

theorem invOn_cur_mono {ts dels : List Task} {cur cur' : Int}
    (hle : cur ≤ cur') (h : InvOn ts dels cur) : InvOn ts dels cur' := by
  obtain ⟨hA, hB, hC, hD⟩ := h
  refine ⟨hA, hB, ?_, le_trans hD hle⟩
  intro t ht
  obtain ⟨k, hk, hid⟩ := hC t ht
  exact ⟨k, lt_of_lt_of_le hk hle, hid⟩

/-- A delivery episode: the head task `y` is handed out as `t'` (same ID,
attempts one higher) and logged; the invariant follows it. -/
theorem invOn_deliver {y t' : Task} {L dels : List Task} {cur : Int}
    (h : InvOn (y :: L) dels cur)
    (hID : t'.ID = y.ID) (hAtt : t'.numAttempts = y.numAttempts + 1) :
    InvOn (t' :: L) (dels ++ [t']) cur := by
  obtain ⟨hA, hB, hC, hD⟩ := h
  have hB' := hB
  simp only [List.map_cons, List.nodup_cons] at hB'
  have hyL : ∀ x ∈ L, x.ID ≠ y.ID := fun x hx hxy =>
    hB'.1 (hxy ▸ List.mem_map_of_mem Task.ID hx)
  refine ⟨?_, ?_, ?_, hD⟩
  · intro x hx
    rcases List.mem_cons.mp hx with rfl | hxL
    · have h1 : countDel [x] y.ID = 1 := by simp [countDel, hID]
      rw [hAtt, hA y (List.mem_cons_self y L), countDel_append, hID, h1]
      push_cast
      ring
    · have hne : t'.ID ≠ x.ID := by
        rw [hID]
        exact fun he => hyL x hxL he.symm
      have h0 : countDel [t'] x.ID = 0 := by simp [countDel, hne]
      rw [hA x (List.mem_cons_of_mem y hxL), countDel_append, h0]
      push_cast
      ring
  · simp only [List.map_cons, hID]
    simpa only [List.map_cons] using hB
  · intro t ht
    rcases ht with ht | ht
    · rcases List.mem_cons.mp ht with rfl | htL
      · obtain ⟨k, hk, hid⟩ := hC y (Or.inl (List.mem_cons_self y L))
        exact ⟨k, hk, hID.trans hid⟩
      · exact hC t (Or.inl (List.mem_cons_of_mem y htL))
    · rcases List.mem_append.mp ht with ht | ht
      · exact hC t (Or.inr ht)
      · have heq : t = t' := by simpa using ht
        subst heq
        obtain ⟨k, hk, hid⟩ := hC y (Or.inl (List.mem_cons_self y L))
        exact ⟨k, hk, hID.trans hid⟩

/-- Replacing the head by a copy with the same ID and the same attempt
count (the keepalive refresh) preserves the invariant. -/
theorem invOn_replace {y t' : Task} {L dels : List Task} {cur : Int}
    (h : InvOn (y :: L) dels cur)
    (hID : t'.ID = y.ID) (hAtt : t'.numAttempts = y.numAttempts) :
    InvOn (t' :: L) dels cur := by
  obtain ⟨hA, hB, hC, hD⟩ := h
  refine ⟨?_, ?_, ?_, hD⟩
  · intro x hx
    rcases List.mem_cons.mp hx with rfl | hxL
    · rw [hAtt, hID]
      exact hA y (List.mem_cons_self y L)
    · exact hA x (List.mem_cons_of_mem y hxL)
  · simp only [List.map_cons, hID]
    simpa only [List.map_cons] using hB
  · intro t ht
    rcases ht with ht | ht
    · rcases List.mem_cons.mp ht with rfl | htL
      · obtain ⟨k, hk, hid⟩ := hC y (Or.inl (List.mem_cons_self y L))
        exact ⟨k, hk, hID.trans hid⟩
      · exact hC t (Or.inl (List.mem_cons_of_mem y htL))
    · exact hC t (Or.inr ht)

/-- A batch of delivery episodes: every task of `ts` is handed out
(attempts one higher each) and logged. -/
theorem invOn_deliverAll (upd : Task → Task)
    (hID : ∀ t, (upd t).ID = t.ID)
    (hAtt : ∀ t, (upd t).numAttempts = t.numAttempts + 1) :
    ∀ (ts L dels : List Task) (cur : Int),
      InvOn (ts ++ L) dels cur →
      InvOn (ts.map upd ++ L) (dels ++ ts.map upd) cur := by
  intro ts
  induction ts with
  | nil =>
    intro L dels cur h
    simpa using h
  | cons y rest ih =>
    intro L dels cur h
    have h1 : InvOn (upd y :: (rest ++ L)) (dels ++ [upd y]) cur :=
      invOn_deliver h (hID y) (hAtt y)
    have h2 : InvOn (rest ++ (upd y :: L)) (dels ++ [upd y]) cur :=
      invOn_perm List.perm_middle.symm h1
    have h3 := ih (upd y :: L) (dels ++ [upd y]) cur h2
    have h4 : InvOn (upd y :: (rest.map upd ++ L)) ((dels ++ [upd y]) ++ rest.map upd) cur :=
      invOn_perm List.perm_middle h3
    have hd : (dels ++ [upd y]) ++ rest.map upd = dels ++ (y :: rest).map upd := by
      simp
    rw [hd] at h4
    simpa using h4

/-- A fresh push: the new task has the next hex ID and zero attempts. -/
theorem invOn_push {ts dels : List Task} {cur : Int} (new : Task)
    (hID : new.ID = Tasq.hexId cur) (hAtt : new.numAttempts = 0)
    (h : InvOn ts dels cur) : InvOn (ts ++ [new]) dels (cur + 1) := by
  obtain ⟨hA, hB, hC, hD⟩ := h
  have hfresh : ∀ t : Task, (t ∈ ts ∨ t ∈ dels) → t.ID ≠ new.ID := by
    intro t ht habs
    obtain ⟨k, hk, hid⟩ := hC t ht
    rw [hID] at habs
    have hcur : Tasq.hexId ((cur.toNat : Nat) : Int) = Tasq.hexId cur := by
      rw [Int.toNat_of_nonneg hD]
    have hkc : k = cur.toNat :=
      Tasq.hexId_natCast_inj ((hid.symm.trans habs).trans hcur.symm)
    omega
  have hmain : InvOn (new :: ts) dels (cur + 1) := by
    refine ⟨?_, ?_, ?_, by omega⟩
    · intro x hx
      rcases List.mem_cons.mp hx with rfl | hxts
      · rw [hAtt, countDel_eq_zero (fun t ht => hfresh t (Or.inr ht))]
        simp
      · exact hA x hxts
    · simp only [List.map_cons, List.nodup_cons]
      refine ⟨?_, hB⟩
      intro habs
      obtain ⟨t, hts, hid⟩ := List.mem_map.mp habs
      exact hfresh t (Or.inl hts) hid
    · intro t ht
      rcases ht with ht | ht
      · rcases List.mem_cons.mp ht with rfl | hts
        · exact ⟨cur.toNat, by omega, by rw [hID, Int.toNat_of_nonneg hD]⟩
        · obtain ⟨k, hk, hid⟩ := hC t (Or.inl hts)
          exact ⟨k, by omega, hid⟩
      · obtain ⟨k, hk, hid⟩ := hC t (Or.inr ht)
        exact ⟨k, by omega, hid⟩
  exact invOn_perm (List.perm_append_singleton new ts).symm hmain

/-- Rewriting the running segment through an ID- and attempts-preserving
map (the expire-all stamp) preserves the invariant. -/
theorem invOn_append_map {P R dels : List Task} {cur : Int} (f : Task → Task)
    (hfID : ∀ t, (f t).ID = t.ID) (hfA : ∀ t, (f t).numAttempts = t.numAttempts)
    (h : InvOn (P ++ R) dels cur) : InvOn (P ++ R.map f) dels cur := by
  obtain ⟨hA, hB, hC, hD⟩ := h
  refine ⟨?_, ?_, ?_, hD⟩
  · intro x hx
    rcases List.mem_append.mp hx with hx | hx
    · exact hA x (List.mem_append.mpr (Or.inl hx))
    · obtain ⟨t, ht, rfl⟩ := List.mem_map.mp hx
      rw [hfA, hfID]
      exact hA t (List.mem_append.mpr (Or.inr ht))
  · have hmap : (P ++ R.map f).map Task.ID = (P ++ R).map Task.ID := by
      simp only [List.map_append, List.map_map]
      congr 1
      exact List.map_congr_left (fun t _ => hfID t)
    rw [hmap]
    exact hB
  · intro t ht
    rcases ht with ht | ht
    · rcases List.mem_append.mp ht with hx | hx
      · exact hC t (Or.inl (List.mem_append.mpr (Or.inl hx)))
      · obtain ⟨s, hs, rfl⟩ := List.mem_map.mp hx
        obtain ⟨k, hk, hid⟩ := hC s (Or.inl (List.mem_append.mpr (Or.inr hs)))
        exact ⟨k, hk, (hfID s).trans hid⟩
    · exact hC t (Or.inr ht)

theorem pop_pending_eq (q : QueueState) (now : Int) (tmo : Option Int)
    (p : Task) (prest : List Task) (hd : q.pending.deque = p :: prest) :
    q.Pop now tmo =
      (some (deliver q.running.timeout tmo now p), none,
       { q with pending := { q.pending with deque := prest },
                running := { q.running with
                  deque := PushByExpiration q.running.deque
                    (deliver q.running.timeout tmo now p) } }) := by
  simp only [QueueState.Pop, PendingQueue.PopTask, hd, startedTask_true]

theorem pop_empty_eq (q : QueueState) (now : Int) (tmo : Option Int)
    (hd : q.pending.deque = []) :
    (q.running.deque = [] → q.Pop now tmo = (none, none, q)) ∧
    (∀ h rest, q.running.deque = h :: rest → h.expiration > now →
      q.Pop now tmo = (none, some h.expiration, q)) ∧
    (∀ h rest, q.running.deque = h :: rest → ¬h.expiration > now →
      q.Pop now tmo =
        (some (deliver q.running.timeout tmo now h), none,
         { q with running := { q.running with
            deque := PushByExpiration rest
              (deliver q.running.timeout tmo now h) } })) := by
  refine ⟨?_, ?_, ?_⟩
  · intro hr
    simp only [QueueState.Pop, PendingQueue.PopTask, hd, RunningQueue.PopExpired, hr]
  · intro h rest hr hexp
    simp only [QueueState.Pop, PendingQueue.PopTask, hd, RunningQueue.PopExpired, hr,
      if_pos hexp]
  · intro h rest hr hexp
    simp only [QueueState.Pop, PendingQueue.PopTask, hd, RunningQueue.PopExpired, hr,
      if_neg hexp, startedTask_true]

theorem completed_found_eq (q : QueueState) (id : String) (now : Int) (task : Task)
    (hf : q.running.findID id = some task) :
    q.Completed id now =
      (true, { q with running := { q.running with deque := removeID q.running.deque id },
                      completionCounter := q.completionCounter + 1,
                      rateTracker := q.rateTracker.Add now 1 }) := by
  simp only [QueueState.Completed, RunningQueue.Completed, hf]

theorem completed_missing_eq (q : QueueState) (id : String) (now : Int)
    (hf : q.running.findID id = none) :
    q.Completed id now = (false, q) := by
  simp only [QueueState.Completed, RunningQueue.Completed, hf]

theorem keepalive_found_eq (q : QueueState) (id : String) (tmo : Option Int) (now : Int)
    (task : Task) (hf : q.running.findID id = some task) :
    q.Keepalive id tmo now =
      (true,
       { q with running := { q.running with
          deque := PushByExpiration (removeID q.running.deque id)
            (refresh q.running.timeout tmo now task) } }) := by
  simp only [QueueState.Keepalive, RunningQueue.Keepalive, hf, startedTask_false]

theorem keepalive_missing_eq (q : QueueState) (id : String) (tmo : Option Int) (now : Int)
    (hf : q.running.findID id = none) :
    q.Keepalive id tmo now = (false, q) := by
  simp only [QueueState.Keepalive, RunningQueue.Keepalive, hf]

theorem queueExpiredAux_join (now : Int) (d : TaskDeque) :
    (QueueState.queueExpiredAux now d).1 ++ (QueueState.queueExpiredAux now d).2 = d := by
  induction d with
  | nil => rfl
  | cons t rest ih =>
    unfold QueueState.queueExpiredAux
    split
    · rfl
    · simpa using ih

theorem popBatchPending_take_drop (n : Nat) (p : PendingQueue) :
    QueueState.popBatchPending n p
      = (p.deque.take n, { p with deque := p.deque.drop n }) := by
  induction n generalizing p with
  | zero => rfl
  | succ k ih =>
    obtain ⟨d, cid⟩ := p
    cases d with
    | nil => rfl
    | cons t rest =>
      show (t :: (QueueState.popBatchPending k ⟨rest, cid⟩).1,
            (QueueState.popBatchPending k ⟨rest, cid⟩).2) = _
      rw [ih]
      exact rfl

theorem popBatchExpired_split (now : Int) (k : Nat) (r : RunningQueue) :
    (QueueState.popBatchExpired now k r).1
        ++ (QueueState.popBatchExpired now k r).2.2.deque = r.deque ∧
    (QueueState.popBatchExpired now k r).2.2.timeout = r.timeout := by
  induction k generalizing r with
  | zero => exact ⟨rfl, rfl⟩
  | succ k ih =>
    obtain ⟨d, tmo⟩ := r
    cases d with
    | nil => exact ⟨rfl, rfl⟩
    | cons t rest =>
      by_cases hexp : t.expiration > now
      · simp only [QueueState.popBatchExpired, RunningQueue.PopExpired, if_pos hexp]
        exact ⟨by trivial, by trivial⟩
      · simp only [QueueState.popBatchExpired, RunningQueue.PopExpired, if_neg hexp]
        have hrec := ih ⟨rest, tmo⟩
        exact ⟨by simpa using hrec.1, hrec.2⟩

theorem startAll_deliver_spec (tmo : Option Int) (now : Int) (ts : List Task)
    (r : RunningQueue) :
    (QueueState.startAll tmo now ts r).1 = ts.map (deliver r.timeout tmo now) ∧
    List.Perm (QueueState.startAll tmo now ts r).2.deque
      (ts.map (deliver r.timeout tmo now) ++ r.deque) ∧
    (QueueState.startAll tmo now ts r).2.timeout = r.timeout := by
  induction ts generalizing r with
  | nil => exact ⟨rfl, List.Perm.refl _, rfl⟩
  | cons t rest ih =>
    have hstep : QueueState.startAll tmo now (t :: rest) r
        = ((deliver r.timeout tmo now t) ::
             (QueueState.startAll tmo now rest
               { r with deque := PushByExpiration r.deque (deliver r.timeout tmo now t) }).1,
           (QueueState.startAll tmo now rest
               { r with deque := PushByExpiration r.deque (deliver r.timeout tmo now t) }).2) := by
      simp only [QueueState.startAll, startedTask_true]
    have hrec := ih { r with deque := PushByExpiration r.deque (deliver r.timeout tmo now t) }
    rw [hstep]
    refine ⟨?_, ?_, hrec.2.2⟩
    · rw [hrec.1]
      simp
    · refine hrec.2.1.trans ?_
      refine (List.Perm.append_left _ (pushByExpiration_perm _ _)).trans ?_
      simp only [List.map_cons, List.cons_append]
      exact List.perm_middle

/-- The list-level heart of `PopBatch`: the pending prefix `P1` and the
drained expired segment `G` are delivered as a batch, the rest stays. -/
theorem invOn_popBatch_core (P1 P2 G Rem dels : List Task) (cur : Int)
    (upd : Task → Task)
    (hID : ∀ t, (upd t).ID = t.ID) (hAtt : ∀ t, (upd t).numAttempts = t.numAttempts + 1)
    (h : InvOn ((P1 ++ P2) ++ (G ++ Rem)) dels cur)
    (dl : List Task) (hdl : dl = (P1 ++ G).map upd)
    (final : List Task) (hfin : List.Perm final ((P1 ++ G).map upd ++ Rem)) :
    InvOn (P2 ++ final) (dels ++ dl) cur := by
  subst hdl
  have hmid : List.Perm (P2 ++ (G ++ Rem)) (G ++ (P2 ++ Rem)) := by
    rw [← List.append_assoc, ← List.append_assoc]
    exact List.Perm.append_right Rem List.perm_append_comm
  have hperm1 : List.Perm ((P1 ++ P2) ++ (G ++ Rem)) ((P1 ++ G) ++ (P2 ++ Rem)) := by
    simp only [List.append_assoc]
    exact List.Perm.append_left P1 hmid
  have h1 := invOn_perm hperm1 h
  have h2 := invOn_deliverAll upd hID hAtt (P1 ++ G) (P2 ++ Rem) dels cur h1
  refine invOn_perm ?_ h2
  have hback : List.Perm (P2 ++ final) ((P1 ++ G).map upd ++ (P2 ++ Rem)) := by
    refine (List.Perm.append_left P2 hfin).trans ?_
    rw [← List.append_assoc, ← List.append_assoc]
    exact List.Perm.append_right Rem List.perm_append_comm
  exact hback.symm

/-- `PopBatch` preserves the attempt invariant (delivered tasks appended
to the log) and never touches `curID`. -/
theorem attInv_popBatch (q : QueueState) (dels : List Task) (n : Nat) (now : Int)
    (tmo : Option Int) (h : AttInv q dels) :
    AttInv (q.PopBatch n now tmo).2.2 (dels ++ (q.PopBatch n now tmo).1) ∧
    (q.PopBatch n now tmo).2.2.pending.curID = q.pending.curID := by
  rcases hA : QueueState.popBatchPending n q.pending with ⟨ts1, pending1⟩
  rcases hB : QueueState.popBatchExpired now (n - ts1.length) q.running
    with ⟨ts2, nxt, running1⟩
  rcases hS : QueueState.startAll tmo now (ts1 ++ ts2) running1 with ⟨started, running2⟩
  have hPB : q.PopBatch n now tmo
      = (started, nxt, { q with pending := pending1, running := running2 }) := by
    simp only [QueueState.PopBatch, hA, hB, hS]
  have hts1 : ts1 = q.pending.deque.take n := by
    have hA' := popBatchPending_take_drop n q.pending
    rw [hA] at hA'
    exact congrArg Prod.fst hA'
  have hpd : pending1 = { q.pending with deque := q.pending.deque.drop n } := by
    have hA' := popBatchPending_take_drop n q.pending
    rw [hA] at hA'
    exact congrArg Prod.snd hA'
  have hB1 : ts2 ++ running1.deque = q.running.deque := by
    have hsp := (popBatchExpired_split now (n - ts1.length) q.running).1
    rw [hB] at hsp
    exact hsp
  have hS1 : started = (ts1 ++ ts2).map (deliver running1.timeout tmo now) := by
    have hsp := (startAll_deliver_spec tmo now (ts1 ++ ts2) running1).1
    rw [hS] at hsp
    exact hsp
  have hS2 : List.Perm running2.deque
      ((ts1 ++ ts2).map (deliver running1.timeout tmo now) ++ running1.deque) := by
    have hsp := (startAll_deliver_spec tmo now (ts1 ++ ts2) running1).2.1
    rw [hS] at hsp
    exact hsp
  have h0 : InvOn ((ts1 ++ q.pending.deque.drop n) ++ (ts2 ++ running1.deque))
      dels q.pending.curID := by
    have h1 : InvOn (q.pending.deque ++ q.running.deque) dels q.pending.curID := h
    rw [← hB1] at h1
    rw [← List.take_append_drop n q.pending.deque] at h1
    rw [← hts1] at h1
    exact h1
  constructor
  · show AttInv (q.PopBatch n now tmo).2.2 (dels ++ (q.PopBatch n now tmo).1)
    rw [hPB]
    show InvOn (pending1.deque ++ running2.deque) (dels ++ started) pending1.curID
    have hcur : pending1.curID = q.pending.curID := by rw [hpd]
    have hdq : pending1.deque = q.pending.deque.drop n := by rw [hpd]
    rw [hcur, hdq]
    exact invOn_popBatch_core ts1 (q.pending.deque.drop n) ts2 running1.deque dels
      q.pending.curID (deliver running1.timeout tmo now) (fun t => rfl) (fun t => rfl)
      h0 started hS1 running2.deque hS2
  · rw [hPB]
    show pending1.curID = q.pending.curID
    rw [hpd]

/-- One instrumented step preserves the attempt invariant; `curID` never
decreases and grows by at most the number of pushes (one or zero). -/
theorem attInv_applyOp (q : QueueState) (dels : List Task) (op : Op)
    (h : AttInv q dels)
    (hb : ∀ c l, op = Op.push c l → q.pending.curID + 1 < 2 ^ 63) :
    AttInv (applyOp q op).1 (dels ++ (applyOp q op).2) ∧
    q.pending.curID ≤ (applyOp q op).1.pending.curID ∧
    (applyOp q op).1.pending.curID ≤ q.pending.curID + (countPush [op] : Int) := by
  cases op with
  | push c l =>
    have hcur := hb c l rfl
    have hD : (0:Int) ≤ q.pending.curID := h.2.2.2
    by_cases hlim : l > 0 ∧ (q.pending.deque.length : Int) ≥ l
    · have h2 : (q.Push c l).2 = q := by rw [(push_limit_spec q c l).1 hlim]
      refine ⟨?_, ?_, ?_⟩
      · show AttInv (q.Push c l).2 (dels ++ [])
        rw [h2, List.append_nil]
        exact h
      · show q.pending.curID ≤ (q.Push c l).2.pending.curID
        exact le_of_eq (by rw [h2])
      · show (q.Push c l).2.pending.curID ≤ q.pending.curID + (countPush [Op.push c l] : Int)
        rw [h2]
        have hc : (countPush [Op.push c l] : Int) = 1 := rfl
        omega
    · have hwrap : Tasq.int64wrap (q.pending.curID + 1) = q.pending.curID + 1 :=
        Tasq.int64wrap_eq_self (by omega) hcur
      have h2 : (q.Push c l).2 =
          { q with pending :=
            { deque := q.pending.deque ++
                [{ ID := Tasq.hexId q.pending.curID, Contents := c,
                   expiration := 0, numAttempts := 0 }],
              curID := q.pending.curID + 1 } } := by
        rw [(push_limit_spec q c l).2 hlim, hwrap]
      refine ⟨?_, ?_, ?_⟩
      · show AttInv (q.Push c l).2 (dels ++ [])
        rw [h2, List.append_nil]
        show InvOn ((q.pending.deque ++
            [{ ID := Tasq.hexId q.pending.curID, Contents := c,
               expiration := 0, numAttempts := 0 }]) ++ q.running.deque)
          dels (q.pending.curID + 1)
        have hmain : InvOn ((q.pending.deque ++ q.running.deque) ++
            [{ ID := Tasq.hexId q.pending.curID, Contents := c,
               expiration := 0, numAttempts := 0 }]) dels (q.pending.curID + 1) :=
          invOn_push _ rfl rfl h
        refine invOn_perm ?_ hmain
        simp only [List.append_assoc]
        exact List.Perm.append_left _ List.perm_append_comm
      · show q.pending.curID ≤ (q.Push c l).2.pending.curID
        rw [h2]
        show q.pending.curID ≤ q.pending.curID + 1
        omega
      · show (q.Push c l).2.pending.curID ≤ q.pending.curID + (countPush [Op.push c l] : Int)
        rw [h2]
        show q.pending.curID + 1 ≤ q.pending.curID + (countPush [Op.push c l] : Int)
        have hc : (countPush [Op.push c l] : Int) = 1 := rfl
        omega
  | pop now tmo =>
    cases hd : q.pending.deque with
    | cons p prest =>
      have heq := pop_pending_eq q now tmo p prest hd
      have hstate : (q.Pop now tmo).2.2 =
          { q with pending := { q.pending with deque := prest },
                   running := { q.running with
                     deque := PushByExpiration q.running.deque
                       (deliver q.running.timeout tmo now p) } } := by rw [heq]
      have hdel : (q.Pop now tmo).1.toList = [deliver q.running.timeout tmo now p] := by
        rw [heq]
        rfl
      refine ⟨?_, ?_, ?_⟩
      · show AttInv (q.Pop now tmo).2.2 (dels ++ (q.Pop now tmo).1.toList)
        rw [hstate, hdel]
        show InvOn (prest ++ PushByExpiration q.running.deque
            (deliver q.running.timeout tmo now p))
          (dels ++ [deliver q.running.timeout tmo now p]) q.pending.curID
        have h0 : InvOn (p :: (prest ++ q.running.deque)) dels q.pending.curID := by
          have h1 : InvOn (q.pending.deque ++ q.running.deque) dels q.pending.curID := h
          rw [hd] at h1
          exact h1
        have h1 : InvOn (deliver q.running.timeout tmo now p :: (prest ++ q.running.deque))
            (dels ++ [deliver q.running.timeout tmo now p]) q.pending.curID :=
          invOn_deliver h0 rfl rfl
        refine invOn_perm ?_ h1
        exact ((List.Perm.append_left prest
          (pushByExpiration_perm q.running.deque _)).trans List.perm_middle).symm
      · have he : (q.Pop now tmo).2.2.pending.curID = q.pending.curID := by rw [hstate]
        exact le_of_eq he.symm
      · show (q.Pop now tmo).2.2.pending.curID
            ≤ q.pending.curID + (countPush [Op.pop now tmo] : Int)
        have hc : (countPush [Op.pop now tmo] : Int) = 0 := rfl
        have he : (q.Pop now tmo).2.2.pending.curID = q.pending.curID := by rw [hstate]
        omega
    | nil =>
      have hspec := pop_empty_eq q now tmo hd
      cases hr : q.running.deque with
      | nil =>
        have h2 : q.Pop now tmo = (none, none, q) := hspec.1 hr
        refine ⟨?_, ?_, ?_⟩
        · show AttInv (q.Pop now tmo).2.2 (dels ++ (q.Pop now tmo).1.toList)
          rw [h2]
          show AttInv q (dels ++ [])
          rw [List.append_nil]
          exact h
        · have he : (q.Pop now tmo).2.2.pending.curID = q.pending.curID := by rw [h2]
          exact le_of_eq he.symm
        · show (q.Pop now tmo).2.2.pending.curID
              ≤ q.pending.curID + (countPush [Op.pop now tmo] : Int)
          have hc : (countPush [Op.pop now tmo] : Int) = 0 := rfl
          have he : (q.Pop now tmo).2.2.pending.curID = q.pending.curID := by rw [h2]
          omega
      | cons rh rrest =>
        by_cases hexp : rh.expiration > now
        · have h2 : q.Pop now tmo = (none, some rh.expiration, q) :=
            hspec.2.1 rh rrest hr hexp
          refine ⟨?_, ?_, ?_⟩
          · show AttInv (q.Pop now tmo).2.2 (dels ++ (q.Pop now tmo).1.toList)
            rw [h2]
            show AttInv q (dels ++ [])
            rw [List.append_nil]
            exact h
          · have he : (q.Pop now tmo).2.2.pending.curID = q.pending.curID := by rw [h2]
            exact le_of_eq he.symm
          · show (q.Pop now tmo).2.2.pending.curID
                ≤ q.pending.curID + (countPush [Op.pop now tmo] : Int)
            have hc : (countPush [Op.pop now tmo] : Int) = 0 := rfl
            have he : (q.Pop now tmo).2.2.pending.curID = q.pending.curID := by rw [h2]
            omega
        · have h2 := hspec.2.2 rh rrest hr hexp
          have hstate : (q.Pop now tmo).2.2 =
              { q with running := { q.running with
                  deque := PushByExpiration rrest
                    (deliver q.running.timeout tmo now rh) } } := by rw [h2]
          have hdel : (q.Pop now tmo).1.toList = [deliver q.running.timeout tmo now rh] := by
            rw [h2]
            rfl
          refine ⟨?_, ?_, ?_⟩
          · show AttInv (q.Pop now tmo).2.2 (dels ++ (q.Pop now tmo).1.toList)
            rw [hstate, hdel]
            show InvOn (q.pending.deque ++ PushByExpiration rrest
                (deliver q.running.timeout tmo now rh))
              (dels ++ [deliver q.running.timeout tmo now rh]) q.pending.curID
            rw [hd, List.nil_append]
            have h0 : InvOn (rh :: rrest) dels q.pending.curID := by
              have h1 : InvOn (q.pending.deque ++ q.running.deque) dels q.pending.curID := h
              rw [hd, hr, List.nil_append] at h1
              exact h1
            have h1 : InvOn (deliver q.running.timeout tmo now rh :: rrest)
                (dels ++ [deliver q.running.timeout tmo now rh]) q.pending.curID :=
              invOn_deliver h0 rfl rfl
            exact invOn_perm (pushByExpiration_perm rrest _).symm h1
          · have he : (q.Pop now tmo).2.2.pending.curID = q.pending.curID := by rw [hstate]
            exact le_of_eq he.symm
          · show (q.Pop now tmo).2.2.pending.curID
                ≤ q.pending.curID + (countPush [Op.pop now tmo] : Int)
            have hc : (countPush [Op.pop now tmo] : Int) = 0 := rfl
            have he : (q.Pop now tmo).2.2.pending.curID = q.pending.curID := by rw [hstate]
            omega
  | popBatch n now tmo =>
    have hpb := attInv_popBatch q dels n now tmo h
    refine ⟨hpb.1, le_of_eq hpb.2.symm, ?_⟩
    show (q.PopBatch n now tmo).2.2.pending.curID
        ≤ q.pending.curID + (countPush [Op.popBatch n now tmo] : Int)
    have hc : (countPush [Op.popBatch n now tmo] : Int) = 0 := rfl
    have he := hpb.2
    omega
  | completed id now =>
    cases hf : q.running.findID id with
    | none =>
      have h2 : q.Completed id now = (false, q) := completed_missing_eq q id now hf
      refine ⟨?_, ?_, ?_⟩
      · show AttInv (q.Completed id now).2 (dels ++ [])
        rw [h2]
        show AttInv q (dels ++ [])
        rw [List.append_nil]
        exact h
      · have he : (q.Completed id now).2.pending.curID = q.pending.curID := by rw [h2]
        exact le_of_eq he.symm
      · show (q.Completed id now).2.pending.curID
            ≤ q.pending.curID + (countPush [Op.completed id now] : Int)
        have hc : (countPush [Op.completed id now] : Int) = 0 := rfl
        have he : (q.Completed id now).2.pending.curID = q.pending.curID := by rw [h2]
        omega
    | some task =>
      have h2 := completed_found_eq q id now task hf
      refine ⟨?_, ?_, ?_⟩
      · show AttInv (q.Completed id now).2 (dels ++ [])
        rw [h2, List.append_nil]
        show InvOn (q.pending.deque ++ removeID q.running.deque id) dels q.pending.curID
        exact invOn_sublist
          (List.Sublist.append_left (removeID_isSublist q.running.deque id) q.pending.deque) h
      · have he : (q.Completed id now).2.pending.curID = q.pending.curID := by rw [h2]
        exact le_of_eq he.symm
      · show (q.Completed id now).2.pending.curID
            ≤ q.pending.curID + (countPush [Op.completed id now] : Int)
        have hc : (countPush [Op.completed id now] : Int) = 0 := rfl
        have he : (q.Completed id now).2.pending.curID = q.pending.curID := by rw [h2]
        omega
  | keepalive id tmo now =>
    cases hf : q.running.findID id with
    | none =>
      have h2 : q.Keepalive id tmo now = (false, q) := keepalive_missing_eq q id tmo now hf
      refine ⟨?_, ?_, ?_⟩
      · show AttInv (q.Keepalive id tmo now).2 (dels ++ [])
        rw [h2]
        show AttInv q (dels ++ [])
        rw [List.append_nil]
        exact h
      · have he : (q.Keepalive id tmo now).2.pending.curID = q.pending.curID := by rw [h2]
        exact le_of_eq he.symm
      · show (q.Keepalive id tmo now).2.pending.curID
            ≤ q.pending.curID + (countPush [Op.keepalive id tmo now] : Int)
        have hc : (countPush [Op.keepalive id tmo now] : Int) = 0 := rfl
        have he : (q.Keepalive id tmo now).2.pending.curID = q.pending.curID := by rw [h2]
        omega
    | some task =>
      have h2 := keepalive_found_eq q id tmo now task hf
      have hstate : (q.Keepalive id tmo now).2 =
          { q with running := { q.running with
              deque := PushByExpiration (removeID q.running.deque id)
                (refresh q.running.timeout tmo now task) } } := by rw [h2]
      refine ⟨?_, ?_, ?_⟩
      · show AttInv (q.Keepalive id tmo now).2 (dels ++ [])
        rw [hstate, List.append_nil]
        show InvOn (q.pending.deque ++ PushByExpiration (removeID q.running.deque id)
            (refresh q.running.timeout tmo now task)) dels q.pending.curID
        have hperm0 : List.Perm q.running.deque (task :: removeID q.running.deque id) :=
          find_removeID_perm q.running.deque id task hf
        have h0 : InvOn (task :: (q.pending.deque ++ removeID q.running.deque id))
            dels q.pending.curID := by
          refine invOn_perm ?_ h
          refine (List.Perm.append_left q.pending.deque hperm0).trans ?_
          exact List.perm_middle
        have h1 : InvOn (refresh q.running.timeout tmo now task
            :: (q.pending.deque ++ removeID q.running.deque id)) dels q.pending.curID :=
          invOn_replace h0 rfl rfl
        refine invOn_perm ?_ h1
        have hback : List.Perm (q.pending.deque
            ++ PushByExpiration (removeID q.running.deque id)
              (refresh q.running.timeout tmo now task))
            (refresh q.running.timeout tmo now task
              :: (q.pending.deque ++ removeID q.running.deque id)) := by
          refine (List.Perm.append_left q.pending.deque (pushByExpiration_perm _ _)).trans ?_
          exact List.perm_middle
        exact hback.symm
      · have he : (q.Keepalive id tmo now).2.pending.curID = q.pending.curID := by
          rw [hstate]
        exact le_of_eq he.symm
      · show (q.Keepalive id tmo now).2.pending.curID
            ≤ q.pending.curID + (countPush [Op.keepalive id tmo now] : Int)
        have hc : (countPush [Op.keepalive id tmo now] : Int) = 0 := rfl
        have he : (q.Keepalive id tmo now).2.pending.curID = q.pending.curID := by
          rw [hstate]
        omega
  | clear =>
    refine ⟨?_, ?_, ?_⟩
    · show AttInv q.Clear (dels ++ [])
      rw [List.append_nil]
      show InvOn ([] ++ []) dels q.pending.curID
      exact invOn_sublist (List.nil_sublist _) h
    · exact le_of_eq rfl
    · have hc : (countPush [Op.clear] : Int) = 0 := rfl
      have he : (applyOp q Op.clear).1.pending.curID = q.pending.curID := rfl
      omega
  | expireAll =>
    refine ⟨?_, ?_, ?_⟩
    · show AttInv q.ExpireAll.2 (dels ++ [])
      rw [List.append_nil]
      show InvOn (q.pending.deque ++ q.running.deque.map (fun t => { t with expiration := 0 }))
        dels q.pending.curID
      exact invOn_append_map _ (fun t => rfl) (fun t => rfl) h
    · exact le_of_eq rfl
    · have hc : (countPush [Op.expireAll] : Int) = 0 := rfl
      have he : (applyOp q Op.expireAll).1.pending.curID = q.pending.curID := rfl
      omega
  | queueExpired now =>
    rcases haux : QueueState.queueExpiredAux now q.running.deque with ⟨moved, remaining⟩
    have h2 : q.QueueExpired now =
        (moved.length,
         { q with pending := { q.pending with deque := q.pending.deque ++ moved },
                  running := { q.running with deque := remaining } }) := by
      simp only [QueueState.QueueExpired, haux]
    have hjoin : moved ++ remaining = q.running.deque := by
      have hj := queueExpiredAux_join now q.running.deque
      rw [haux] at hj
      exact hj
    refine ⟨?_, ?_, ?_⟩
    · show AttInv (q.QueueExpired now).2 (dels ++ [])
      rw [h2, List.append_nil]
      show InvOn ((q.pending.deque ++ moved) ++ remaining) dels q.pending.curID
      have hlist : (q.pending.deque ++ moved) ++ remaining
          = q.pending.deque ++ q.running.deque := by
        rw [List.append_assoc, hjoin]
      rw [hlist]
      exact h
    · have he : (q.QueueExpired now).2.pending.curID = q.pending.curID := by rw [h2]
      exact le_of_eq he.symm
    · show (q.QueueExpired now).2.pending.curID
          ≤ q.pending.curID + (countPush [Op.queueExpired now] : Int)
      have hc : (countPush [Op.queueExpired now] : Int) = 0 := rfl
      have he : (q.QueueExpired now).2.pending.curID = q.pending.curID := by rw [h2]
      omega

theorem countPush_cons (op : Op) (ops : List Op) :
    countPush (op :: ops) = countPush [op] + countPush ops := by
  cases op <;> simp [countPush, Nat.add_comm]

theorem countPush_append (a b : List Op) :
    countPush (a ++ b) = countPush a + countPush b := by
  induction a with
  | nil => simp [countPush]
  | cons op rest ih =>
    rw [List.cons_append, countPush_cons op (rest ++ b), ih, countPush_cons op rest]
    omega

theorem exec_append_fst (a b : List Op) : ∀ q : QueueState,
    (exec q (a ++ b)).1 = (exec (exec q a).1 b).1 := by
  induction a with
  | nil => intro q; rfl
  | cons op rest ih => intro q; exact ih (applyOp q op).1

theorem exec_append_snd (a b : List Op) : ∀ q : QueueState,
    (exec q (a ++ b)).2 = (exec q a).2 ++ (exec (exec q a).1 b).2 := by
  induction a with
  | nil => intro q; rfl
  | cons op rest ih =>
    intro q
    show (applyOp q op).2 ++ (exec (applyOp q op).1 (rest ++ b)).2
        = ((applyOp q op).2 ++ (exec (applyOp q op).1 rest).2)
          ++ (exec (exec (applyOp q op).1 rest).1 b).2
    rw [ih (applyOp q op).1, List.append_assoc]

/-- A whole trace preserves the attempt invariant, with `curID` monotone
and bounded by the number of pushes. -/
theorem attInv_exec (ops : List Op) : ∀ (q : QueueState) (dels : List Task),
    AttInv q dels →
    q.pending.curID + (countPush ops : Int) < 2 ^ 63 →
    AttInv (exec q ops).1 (dels ++ (exec q ops).2) ∧
    q.pending.curID ≤ (exec q ops).1.pending.curID ∧
    (exec q ops).1.pending.curID ≤ q.pending.curID + (countPush ops : Int) := by
  induction ops with
  | nil =>
    intro q dels h hb
    refine ⟨?_, le_refl _, ?_⟩
    · show AttInv q (dels ++ [])
      rw [List.append_nil]
      exact h
    · have hc : (countPush ([] : List Op) : Int) = 0 := rfl
      show q.pending.curID ≤ q.pending.curID + (countPush ([] : List Op) : Int)
      omega
  | cons op ops ih =>
    intro q dels h hb
    have hcc : countPush (op :: ops) = countPush [op] + countPush ops := countPush_cons op ops
    have hbop : ∀ c l, op = Op.push c l → q.pending.curID + 1 < 2 ^ 63 := by
      intro c l hop
      subst hop
      have h1 : countPush [Op.push c l] = 1 := rfl
      rw [hcc, h1] at hb
      omega
    have hstep := attInv_applyOp q dels op h hbop
    have hb2 : (applyOp q op).1.pending.curID + (countPush ops : Int) < 2 ^ 63 := by
      have h3 := hstep.2.2
      rw [hcc] at hb
      omega
    have hrec := ih (applyOp q op).1 (dels ++ (applyOp q op).2) hstep.1 hb2
    refine ⟨?_, ?_, ?_⟩
    · show AttInv (exec (applyOp q op).1 ops).1
        (dels ++ ((applyOp q op).2 ++ (exec (applyOp q op).1 ops).2))
      rw [← List.append_assoc]
      exact hrec.1
    · show q.pending.curID ≤ (exec (applyOp q op).1 ops).1.pending.curID
      exact le_trans hstep.2.1 hrec.2.1
    · show (exec (applyOp q op).1 ops).1.pending.curID
        ≤ q.pending.curID + (countPush (op :: ops) : Int)
      have h3 := hrec.2.2
      have h4 := hstep.2.2
      rw [hcc]
      omega

/-- The fresh state satisfies the attempt invariant with an empty log. -/
theorem attInv_init (timeout : Int) : AttInv (NewQueueState timeout) [] := by
  refine ⟨?_, ?_, ?_, le_refl 0⟩
  · intro t ht
    simp [tasksOf, NewQueueState] at ht
  · simp [tasksOf, NewQueueState]
  · intro t ht
    exfalso
    rcases ht with ht | ht
    · simp [tasksOf, NewQueueState] at ht
    · simp at ht

/-- Claim C2 — counterexample to the claim as stated: the claim says a pop
that delivers a task from pending *sets* `numAttempts` to 1.  After push,
pop, expire-all and queue-expired the task sits in the pending queue again
(with one recorded attempt); the next pop delivers it *from pending* with
`numAttempts = 2`, not 1 — matching the engine's own test
`TestQueueStateQueueExpiredDoesNotIncrementAttempts`.  A pop from pending
increments the count by one; it sets it to 1 only on a first delivery. -/
theorem pop_from_pending_attempts_not_one :
    let q0 := ((NewQueueState 60).Push "a" 0).2
    let q1 := (((q0.Pop 0 none).2.2.ExpireAll).2.QueueExpired 1).2
    q1.pending.deque ≠ [] ∧
    ((q1.Pop 2 none).1.map Task.numAttempts = some 2) ∧
    ((q1.Pop 2 none).1.map Task.numAttempts ≠ some 1) := by
  decide

/-- Claim C2 (amended) — **Attempt monotonicity and counting**: along every
trace from a fresh context (while fewer than `2^63` pushes occur), each
held task's `numAttempts` equals its number of delivery episodes so far —
hence it never decreases as the trace extends; a pop that delivers from
pending *increments* `numAttempts` by exactly 1 (so a first delivery sets
it to 1); a pop that consumes an expired running task increments it by
exactly 1; and neither `Keepalive` nor `QueueExpired` ever changes any
task's attempt count (they only permute or move tasks and refresh
expirations). -/
theorem attempts_delivery_spec (timeout : Int) :
    (∀ ops : List Op, (countPush ops : Int) < 2 ^ 63 →
      ∀ t ∈ tasksOf (exec (NewQueueState timeout) ops).1,
        t.numAttempts = (countDel (exec (NewQueueState timeout) ops).2 t.ID : Int)) ∧
    (∀ ops more : List Op, (countPush (ops ++ more) : Int) < 2 ^ 63 →
      ∀ t₁ ∈ tasksOf (exec (NewQueueState timeout) ops).1,
      ∀ t₂ ∈ tasksOf (exec (NewQueueState timeout) (ops ++ more)).1,
        t₁.ID = t₂.ID → t₁.numAttempts ≤ t₂.numAttempts) ∧
    (∀ (q : QueueState) (now : Int) (tmo : Option Int) (p : Task) (prest : List Task),
      q.pending.deque = p :: prest →
      ∃ t, (q.Pop now tmo).1 = some t ∧ t.ID = p.ID ∧
        t.numAttempts = p.numAttempts + 1) ∧
    (∀ (q : QueueState) (now : Int) (tmo : Option Int) (rh : Task) (rrest : List Task),
      q.pending.deque = [] → q.running.deque = rh :: rrest → rh.expiration ≤ now →
      ∃ t, (q.Pop now tmo).1 = some t ∧ t.ID = rh.ID ∧
        t.numAttempts = rh.numAttempts + 1) ∧
    (∀ (q : QueueState) (id : String) (tmo : Option Int) (now : Int),
      List.Perm
        ((tasksOf (q.Keepalive id tmo now).2).map (fun t => (t.ID, t.numAttempts)))
        ((tasksOf q).map (fun t => (t.ID, t.numAttempts)))) ∧
    (∀ (q : QueueState) (now : Int),
      (tasksOf (q.QueueExpired now).2).map (fun t => (t.ID, t.numAttempts))
        = (tasksOf q).map (fun t => (t.ID, t.numAttempts))) := by
  refine ⟨?_, ?_, ?_, ?_, ?_, ?_⟩
  · intro ops hbound t ht
    have hmain := attInv_exec ops (NewQueueState timeout) [] (attInv_init timeout) (by
      show (0:Int) + (countPush ops : Int) < 2 ^ 63
      omega)
    exact hmain.1.1 t ht
  · intro ops more hbound t₁ ht₁ t₂ ht₂ hid
    have hcp := countPush_append ops more
    rw [hcp] at hbound
    have hb1 : (NewQueueState timeout).pending.curID + (countPush ops : Int) < 2 ^ 63 := by
      show (0:Int) + (countPush ops : Int) < 2 ^ 63
      omega
    have hm1 := attInv_exec ops (NewQueueState timeout) [] (attInv_init timeout) hb1
    have hb2 : (exec (NewQueueState timeout) ops).1.pending.curID
        + (countPush more : Int) < 2 ^ 63 := by
      have h3 := hm1.2.2
      have h0 : (NewQueueState timeout).pending.curID = 0 := rfl
      omega
    have hm2 := attInv_exec more (exec (NewQueueState timeout) ops).1
      (exec (NewQueueState timeout) ops).2 hm1.1 hb2
    have e1 := hm1.1.1 t₁ ht₁
    simp only [List.nil_append] at e1
    rw [exec_append_fst ops more (NewQueueState timeout)] at ht₂
    have e2 := hm2.1.1 t₂ ht₂
    rw [e1, e2, hid, countDel_append]
    push_cast
    omega
  · intro q now tmo p prest hd
    refine ⟨deliver q.running.timeout tmo now p, ?_, rfl, rfl⟩
    rw [pop_pending_eq q now tmo p prest hd]
  · intro q now tmo rh rrest hd hr hexp
    refine ⟨deliver q.running.timeout tmo now rh, ?_, rfl, rfl⟩
    rw [(pop_empty_eq q now tmo hd).2.2 rh rrest hr (by omega)]
  · intro q id tmo now
    cases hf : q.running.findID id with
    | none =>
      have h2 := keepalive_missing_eq q id tmo now hf
      have he : (q.Keepalive id tmo now).2 = q := by rw [h2]
      simp only [he]
      exact List.Perm.refl _
    | some task =>
      have h2 := keepalive_found_eq q id tmo now task hf
      have hstate : (q.Keepalive id tmo now).2 =
          { q with running := { q.running with
              deque := PushByExpiration (removeID q.running.deque id)
                (refresh q.running.timeout tmo now task) } } := by rw [h2]
      have hR : List.Perm q.running.deque (task :: removeID q.running.deque id) :=
        find_removeID_perm q.running.deque id task hf
      have hmid2 : List.Perm
          ((refresh q.running.timeout tmo now task :: removeID q.running.deque id).map
            (fun t => (t.ID, t.numAttempts)))
          ((task :: removeID q.running.deque id).map (fun t => (t.ID, t.numAttempts))) := by
        simp only [List.map_cons]
        exact List.Perm.refl _
      simp only [hstate, tasksOf, List.map_append]
      exact List.Perm.append_left _
        ((((pushByExpiration_perm _ _).map _).trans hmid2).trans ((hR.map _).symm))
  · intro q now
    rcases haux : QueueState.queueExpiredAux now q.running.deque with ⟨moved, remaining⟩
    have h2 : q.QueueExpired now =
        (moved.length,
         { q with pending := { q.pending with deque := q.pending.deque ++ moved },
                  running := { q.running with deque := remaining } }) := by
      simp only [QueueState.QueueExpired, haux]
    have hjoin : moved ++ remaining = q.running.deque := by
      have hj := queueExpiredAux_join now q.running.deque
      rw [haux] at hj
      exact hj
    rw [h2]
    show ((q.pending.deque ++ moved) ++ remaining).map (fun t => (t.ID, t.numAttempts))
        = (q.pending.deque ++ q.running.deque).map (fun t => (t.ID, t.numAttempts))
    rw [List.append_assoc, hjoin]

/-- Witness for C2 (amended): after pushing "a" and popping it at time 5,
the held task (ID "0", one attempt) has `numAttempts` equal to its one
logged delivery. -/
theorem attempts_delivery_spec_witness :
    ({ ID := "0", Contents := "a", expiration := 65, numAttempts := 1 } : Task).numAttempts
      = (countDel (exec (NewQueueState 60) [Op.push "a" 0, Op.pop 5 none]).2
          ({ ID := "0", Contents := "a", expiration := 65, numAttempts := 1 } : Task).ID
          : Int) :=
  (attempts_delivery_spec 60).1 [Op.push "a" 0, Op.pop 5 none] (by decide)
    { ID := "0", Contents := "a", expiration := 65, numAttempts := 1 } (by decide)

end AttemptModel
